import Mathlib

/-!
Verification of the casey real-time turn-taking and streaming engine.

Shallow embedding of:
- the Turn Detector (src/backend/vad.js),
- the server Session Controller trigger loop (index.js, quoted in
  src/.cursor/plans/aws_resources_refactor_research_65fbf980.plan.md),
- the client Playback Scheduler (src/frontend/lib/useStreamingPlayback.ts),
- the Response Synthesis Coordinator (src/backend/agent.js),
- the Transcription Session Adapter (src/backend/stt.js).

Machine floats in the source are embedded as exact rationals; JavaScript
energy comparison rms > T (with rms = sqrt(sumSquares / n)) is embedded as
the equivalent integer comparison T^2 * n < sumSquares.
-/

namespace VAD

/-- SILENCE_DURATION_MS constant of vad.js. -/
def SILENCE_DURATION_MS : ℚ := 3000

/-- MIN_SPEECH_DURATION_MS constant of vad.js. -/
def MIN_SPEECH_DURATION_MS : ℚ := 3000

/-- ENERGY_THRESHOLD constant of vad.js. -/
def ENERGY_THRESHOLD : ℤ := 300

/-- One audio frame handed to feed(): a span of signed 16-bit PCM samples
plus its sample rate.  In vad.js the samples arrive as an Int16Array view of
the frame's bytes, so byteLength = 2 * samples.length. -/
structure Frame where
  samples : List ℤ
  sampleRate : ℕ
deriving DecidableEq

/-- byteLength of the frame's buffer (two bytes per 16-bit sample). -/
def Frame.byteLength (f : Frame) : ℕ := 2 * f.samples.length

/-- durationMs = (byteLength / 2 / sampleRate) * 1000 from feed(). -/
def Frame.durationMs (f : Frame) : ℚ :=
  ((f.samples.length : ℚ) / (f.sampleRate : ℚ)) * 1000

/-- Sum of squared samples, the accumulator of computeRMS. -/
def sumSquares (l : List ℤ) : ℤ := (l.map fun s => s * s).sum

/-- isVoice = rms > ENERGY_THRESHOLD of feed(), where
rms = sqrt(sumSquares / n).  Since both sides are nonnegative and sqrt is
strictly monotone, this is equivalent to ENERGY_THRESHOLD^2 * n < sumSquares
(for n = 0 computeRMS returns 0, which agrees with this formula). -/
def Frame.isVoice (f : Frame) : Bool :=
  decide (ENERGY_THRESHOLD ^ 2 * (f.samples.length : ℤ) < sumSquares f.samples)

/-- The mutable closure state of createVAD. -/
structure VADState where
  totalSilenceMs : ℚ
  totalVoiceMs : ℚ
  agentTriggered : Bool
  armed : Bool
  hasSeenVoiceThisRound : Bool
  utteranceBuffer : List Frame
deriving DecidableEq

/-- The state right after createVAD (all counters zero, empty buffer). -/
def initState : VADState :=
  { totalSilenceMs := 0
    totalVoiceMs := 0
    agentTriggered := false
    armed := false
    hasSeenVoiceThisRound := false
    utteranceBuffer := [] }

/-- reset() of vad.js: clears every counter, flag and the buffer. -/
def reset (_s : VADState) : VADState := initState

/-- The voiced / unvoiced counter update of feed() (the first if of its
body after the early returns). -/
def classify (s : VADState) (f : Frame) : VADState :=
  if f.isVoice then
    { s with
      hasSeenVoiceThisRound := true
      totalVoiceMs := s.totalVoiceMs + f.durationMs
      totalSilenceMs := 0
      armed :=
        if MIN_SPEECH_DURATION_MS ≤ s.totalVoiceMs + f.durationMs ∧ s.armed = false then true
        else s.armed }
  else
    { s with totalSilenceMs := s.totalSilenceMs + f.durationMs }

/-- The utteranceBuffer.push of feed(). -/
def record (s : VADState) (f : Frame) : VADState :=
  if s.hasSeenVoiceThisRound then { s with utteranceBuffer := s.utteranceBuffer ++ [f] }
  else s

/-- The firing condition at the end of feed(). -/
def triggerCond (s : VADState) : Prop :=
  s.armed = true ∧ SILENCE_DURATION_MS ≤ s.totalSilenceMs

instance (s : VADState) : Decidable (triggerCond s) := by
  unfold triggerCond; infer_instance

/-- feed(data) of vad.js.  Besides the next state it returns the argument of
the onSilenceDetected callback when this call fires it. -/
def feed (s : VADState) (f : Frame) : VADState × Option (List Frame) :=
  if s.agentTriggered then (s, none)
  else if f.byteLength < 2 then (s, none)
  else
    let s2 := record (classify s f) f
    if triggerCond s2 then
      ({ s2 with agentTriggered := true }, some s2.utteranceBuffer)
    else
      (s2, none)

/-- Feeding a whole sequence of frames, collecting every callback payload. -/
def feedAll (s : VADState) : List Frame → VADState × List (List Frame)
  | [] => (s, [])
  | f :: fs =>
    let r := feed s f
    let rest := feedAll r.1 fs
    (rest.1, r.2.toList ++ rest.2)

/-- A frame that feed() actually classifies as voiced (it is not dropped by
the byteLength < 2 guard and its energy is above the threshold). -/
def effVoice (f : Frame) : Bool := decide (2 ≤ f.byteLength) && f.isVoice

/-- A frame that passes the byteLength guard of feed(). -/
def validFrame (f : Frame) : Bool := decide (2 ≤ f.byteLength)

/-- Total duration of the voiced frames of a sequence. -/
def voicedMs (fs : List Frame) : ℚ :=
  ((fs.filter effVoice).map Frame.durationMs).sum

/-- Total duration of a sequence of frames. -/
def durMs (fs : List Frame) : ℚ := (fs.map Frame.durationMs).sum

/-- A run of frames none of which is voiced. -/
def silentRun (fs : List Frame) : Prop := ∀ f ∈ fs, effVoice f = false

/-- The utterance buffer that the detector accumulates over a frame
sequence: every non-dropped frame from the first voiced frame on. -/
def bufferSpec (fs : List Frame) : List Frame :=
  (fs.dropWhile fun f => !effVoice f).filter validFrame

end VAD

namespace VAD

theorem durationMs_nonneg (f : Frame) : 0 ≤ f.durationMs := by
  unfold Frame.durationMs
  positivity

theorem byteLength_lt_two_iff (f : Frame) : f.byteLength < 2 ↔ f.samples = [] := by
  unfold Frame.byteLength
  cases f.samples <;> simp

theorem durationMs_of_empty (f : Frame) (h : f.samples = []) : f.durationMs = 0 := by
  unfold Frame.durationMs
  rw [h]
  simp

theorem effVoice_false_of_empty (f : Frame) (h : f.samples = []) : effVoice f = false := by
  unfold effVoice
  have : f.byteLength < 2 := (byteLength_lt_two_iff f).mpr h
  simp only [Bool.and_eq_false_iff]
  left
  simpa using by omega

theorem feed_of_triggered (s : VADState) (f : Frame) (h : s.agentTriggered = true) :
    feed s f = (s, none) := by
  unfold feed
  simp [h]

theorem feedAll_of_triggered (s : VADState) (fs : List Frame) (h : s.agentTriggered = true) :
    feedAll s fs = (s, []) := by
  induction fs with
  | nil => rfl
  | cons f fs ih =>
    unfold feedAll
    rw [feed_of_triggered s f h]
    simp [ih]

theorem classify_agentTriggered (s : VADState) (f : Frame) :
    (classify s f).agentTriggered = s.agentTriggered := by
  unfold classify; split <;> rfl

theorem record_agentTriggered (s : VADState) (f : Frame) :
    (record s f).agentTriggered = s.agentTriggered := by
  unfold record; split <;> rfl

theorem record_armed (s : VADState) (f : Frame) : (record s f).armed = s.armed := by
  unfold record; split <;> rfl

theorem record_totalVoiceMs (s : VADState) (f : Frame) :
    (record s f).totalVoiceMs = s.totalVoiceMs := by
  unfold record; split <;> rfl

theorem record_totalSilenceMs (s : VADState) (f : Frame) :
    (record s f).totalSilenceMs = s.totalSilenceMs := by
  unfold record; split <;> rfl

theorem record_hasSeen (s : VADState) (f : Frame) :
    (record s f).hasSeenVoiceThisRound = s.hasSeenVoiceThisRound := by
  unfold record; split <;> rfl

theorem feed_event_triggered (s : VADState) (f : Frame) (b : List Frame)
    (h : (feed s f).2 = some b) : (feed s f).1.agentTriggered = true := by
  unfold feed at *
  by_cases h1 : s.agentTriggered = true
  · simp [h1] at h
  · simp only [Bool.not_eq_true] at h1
    by_cases h2 : f.byteLength < 2
    · simp [h1, h2] at h
    · by_cases h3 : triggerCond (record (classify s f) f)
      · simp [h1, h2, h3]
      · simp [h1, h2, h3] at h

theorem feed_no_event_triggered (s : VADState) (f : Frame)
    (h : (feed s f).2 = none) : (feed s f).1.agentTriggered = s.agentTriggered := by
  unfold feed at *
  by_cases h1 : s.agentTriggered = true
  · simp [h1]
  · simp only [Bool.not_eq_true] at h1
    by_cases h2 : f.byteLength < 2
    · simp [h1, h2]
    · by_cases h3 : triggerCond (record (classify s f) f)
      · simp [h1, h2, h3] at h
      · simp [h1, h2, h3, record_agentTriggered, classify_agentTriggered]

theorem feedAll_append (s : VADState) (xs ys : List Frame) :
    feedAll s (xs ++ ys) =
      ((feedAll (feedAll s xs).1 ys).1,
        (feedAll s xs).2 ++ (feedAll (feedAll s xs).1 ys).2) := by
  induction xs generalizing s with
  | nil => simp [feedAll]
  | cons f xs ih =>
    simp only [List.cons_append, feedAll, List.append_eq]
    rw [ih]
    simp

theorem feedAll_events_le_one (s : VADState) (fs : List Frame) :
    (feedAll s fs).2.length ≤ 1 := by
  induction fs generalizing s with
  | nil => simp [feedAll]
  | cons f fs ih =>
    rcases h : (feed s f).2 with _ | b
    · simp only [feedAll, h, Option.toList, List.nil_append]
      exact ih (feed s f).1
    · have ht := feed_event_triggered s f b h
      simp [feedAll, h, feedAll_of_triggered _ _ ht]

end VAD

namespace VAD

theorem voicedMs_append (xs ys : List Frame) :
    voicedMs (xs ++ ys) = voicedMs xs + voicedMs ys := by
  simp [voicedMs, List.filter_append]

theorem voicedMs_single (f : Frame) :
    voicedMs [f] = if effVoice f = true then f.durationMs else 0 := by
  by_cases h : effVoice f = true <;> simp [voicedMs, List.filter, h]

theorem durMs_append (xs ys : List Frame) : durMs (xs ++ ys) = durMs xs + durMs ys := by
  simp [durMs]

theorem durMs_single (f : Frame) : durMs [f] = f.durationMs := by
  simp [durMs]

theorem voicedMs_of_silentRun (bs : List Frame) (h : silentRun bs) : voicedMs bs = 0 := by
  unfold voicedMs
  have : bs.filter effVoice = [] := by
    rw [List.filter_eq_nil_iff]
    intro f hf
    simp [h f hf]
  rw [this]
  rfl

theorem voicedMs_nonneg (fs : List Frame) : 0 ≤ voicedMs fs := by
  unfold voicedMs
  apply List.sum_nonneg
  intro x hx
  rcases List.mem_map.mp hx with ⟨f, _, rfl⟩
  exact durationMs_nonneg f

theorem durMs_nonneg (fs : List Frame) : 0 ≤ durMs fs := by
  unfold durMs
  apply List.sum_nonneg
  intro x hx
  rcases List.mem_map.mp hx with ⟨f, _, rfl⟩
  exact durationMs_nonneg f

theorem dropWhile_append_all {α : Type} (p : α → Bool) (xs ys : List α)
    (h : ∀ x ∈ xs, p x = true) : (xs ++ ys).dropWhile p = ys.dropWhile p := by
  induction xs with
  | nil => simp
  | cons a xs ih =>
    simp only [List.cons_append, List.dropWhile]
    rw [h a (by simp)]
    exact ih fun x hx => h x (by simp [hx])

theorem dropWhile_append_ne_nil {α : Type} (p : α → Bool) (xs ys : List α)
    (h : xs.dropWhile p ≠ []) : (xs ++ ys).dropWhile p = xs.dropWhile p ++ ys := by
  induction xs with
  | nil => simp at h
  | cons a xs ih =>
    by_cases ha : p a = true
    · simp only [List.cons_append, List.dropWhile, ha]
      simp only [List.dropWhile, ha] at h
      exact ih h
    · have ha' : p a = false := by simpa using ha
      simp only [List.cons_append, List.dropWhile, ha']
      simp

theorem bufferSpec_of_silent (xs : List Frame) (h : ∀ f ∈ xs, effVoice f = false) :
    bufferSpec xs = [] := by
  unfold bufferSpec
  have : (xs.dropWhile fun f => !effVoice f) = [] := by
    rw [List.dropWhile_eq_nil_iff]
    intro f hf
    simp [h f hf]
  rw [this]
  rfl

theorem bufferSpec_append_silent (xs : List Frame) (f : Frame)
    (hxs : ∀ g ∈ xs, effVoice g = false) (hf : effVoice f = false) :
    bufferSpec (xs ++ [f]) = [] := by
  apply bufferSpec_of_silent
  intro g hg
  rcases List.mem_append.mp hg with h | h
  · exact hxs g h
  · simp at h; subst h; exact hf

theorem bufferSpec_append_seen (xs : List Frame) (f : Frame)
    (hxs : ∃ g ∈ xs, effVoice g = true) (hv : validFrame f = true) :
    bufferSpec (xs ++ [f]) = bufferSpec xs ++ [f] := by
  unfold bufferSpec
  have hne : (xs.dropWhile fun g => !effVoice g) ≠ [] := by
    rw [Ne, List.dropWhile_eq_nil_iff]
    push_neg
    rcases hxs with ⟨g, hg, hvg⟩
    exact ⟨g, hg, by simp [hvg]⟩
  rw [dropWhile_append_ne_nil _ _ _ hne, List.filter_append]
  simp [hv]

theorem bufferSpec_append_first (xs : List Frame) (f : Frame)
    (hxs : ∀ g ∈ xs, effVoice g = false) (hf : effVoice f = true) :
    bufferSpec (xs ++ [f]) = [f] := by
  unfold bufferSpec
  rw [dropWhile_append_all _ _ _ (fun g hg => by simp [hxs g hg])]
  simp only [List.dropWhile, hf, Bool.not_true]
  have : validFrame f = true := by
    unfold effVoice at hf
    unfold validFrame
    exact (Bool.and_eq_true_iff.mp hf).1
  simp [this]

end VAD

namespace VAD

theorem silentRun_nil : silentRun [] := by
  intro f hf
  simp at hf

theorem silentRun_append_iff (xs ys : List Frame) :
    silentRun (xs ++ ys) ↔ silentRun xs ∧ silentRun ys := by
  unfold silentRun
  constructor
  · intro h
    exact ⟨fun f hf => h f (by simp [hf]), fun f hf => h f (by simp [hf])⟩
  · rintro ⟨h1, h2⟩ f hf
    rcases List.mem_append.mp hf with h | h
    · exact h1 f h
    · exact h2 f h

theorem not_silentRun_iff (fs : List Frame) :
    ¬ silentRun fs ↔ ∃ g ∈ fs, effVoice g = true := by
  unfold silentRun
  push_neg
  constructor
  · rintro ⟨g, hg, hv⟩
    exact ⟨g, hg, by simpa using hv⟩
  · rintro ⟨g, hg, hv⟩
    exact ⟨g, hg, by simp [hv]⟩

theorem voicedMs_pos_not_silent (fs : List Frame)
    (h : MIN_SPEECH_DURATION_MS ≤ voicedMs fs) : ¬ silentRun fs := by
  intro hs
  rw [voicedMs_of_silentRun fs hs] at h
  norm_num [MIN_SPEECH_DURATION_MS] at h

theorem bufferSpec_append_seen_invalid (xs : List Frame) (f : Frame)
    (hxs : ∃ g ∈ xs, effVoice g = true) (hv : validFrame f = false) :
    bufferSpec (xs ++ [f]) = bufferSpec xs := by
  unfold bufferSpec
  have hne : (xs.dropWhile fun g => !effVoice g) ≠ [] := by
    rw [Ne, List.dropWhile_eq_nil_iff]
    push_neg
    rcases hxs with ⟨g, hg, hvg⟩
    exact ⟨g, hg, by simp [hvg]⟩
  rw [dropWhile_append_ne_nil _ _ _ hne, List.filter_append]
  simp [hv]

theorem effVoice_valid (f : Frame) (h2 : 2 ≤ f.byteLength) : effVoice f = f.isVoice := by
  unfold effVoice
  simp [h2]

theorem validFrame_of_byteLength (f : Frame) (h2 : 2 ≤ f.byteLength) : validFrame f = true := by
  unfold validFrame
  simpa using h2

theorem feed_untriggered_valid (s : VADState) (f : Frame)
    (h1 : s.agentTriggered = false) (h2 : 2 ≤ f.byteLength) :
    feed s f =
      if triggerCond (record (classify s f) f) then
        ({ record (classify s f) f with agentTriggered := true },
          some (record (classify s f) f).utteranceBuffer)
      else (record (classify s f) f, none) := by
  unfold feed
  have : ¬ f.byteLength < 2 := by omega
  simp [h1, this]

theorem feedAll_single (s : VADState) (f : Frame) :
    feedAll s [f] = ((feed s f).1, (feed s f).2.toList) := by
  simp [feedAll]

/-- Invariant of a detector run that has not fired yet. -/
def UntriggeredInv (fs : List Frame) : Prop :=
  (feedAll initState fs).1.agentTriggered = false ∧
  (feedAll initState fs).2 = [] ∧
  (feedAll initState fs).1.totalVoiceMs = voicedMs fs ∧
  ((feedAll initState fs).1.armed = true ↔ MIN_SPEECH_DURATION_MS ≤ voicedMs fs) ∧
  ((feedAll initState fs).1.hasSeenVoiceThisRound = true ↔ ¬ silentRun fs) ∧
  (feedAll initState fs).1.utteranceBuffer = bufferSpec fs ∧
  ∃ as bs, fs = as ++ bs ∧ silentRun bs ∧ (feedAll initState fs).1.totalSilenceMs = durMs bs

/-- Invariant of a detector run that has fired: the firing happened at the
end of a prefix pre whose tail is an unbroken silent run of at least the
silence threshold, coming after at least the speech quota of voiced audio;
the callback received exactly the utterance buffer of pre. -/
def TriggeredInv (fs : List Frame) : Prop :=
  (feedAll initState fs).1.agentTriggered = true ∧
  ∃ pre suf, fs = pre ++ suf ∧
    (feedAll initState fs).2 = [bufferSpec pre] ∧
    (feedAll initState fs).1.utteranceBuffer = bufferSpec pre ∧
    ∃ as bs, pre = as ++ bs ∧ silentRun bs ∧ bs ≠ [] ∧
      SILENCE_DURATION_MS ≤ durMs bs ∧ MIN_SPEECH_DURATION_MS ≤ voicedMs as

end VAD

namespace VAD

theorem classify_of_voice (s : VADState) (f : Frame) (hv : f.isVoice = true) :
    classify s f =
      { s with
        hasSeenVoiceThisRound := true
        totalVoiceMs := s.totalVoiceMs + f.durationMs
        totalSilenceMs := 0
        armed :=
          if MIN_SPEECH_DURATION_MS ≤ s.totalVoiceMs + f.durationMs ∧ s.armed = false then true
          else s.armed } := by
  unfold classify
  simp [hv]

theorem classify_of_silence (s : VADState) (f : Frame) (hv : f.isVoice = false) :
    classify s f = { s with totalSilenceMs := s.totalSilenceMs + f.durationMs } := by
  unfold classify
  simp [hv]

theorem record_of_seen (s : VADState) (f : Frame) (h : s.hasSeenVoiceThisRound = true) :
    record s f = { s with utteranceBuffer := s.utteranceBuffer ++ [f] } := by
  unfold record
  simp [h]

theorem record_of_not_seen (s : VADState) (f : Frame) (h : s.hasSeenVoiceThisRound = false) :
    record s f = s := by
  unfold record
  simp [h]

theorem untriggered_step (fs : List Frame) (f : Frame) (h : UntriggeredInv fs) :
    UntriggeredInv (fs ++ [f]) ∨ TriggeredInv (fs ++ [f]) := by
  have key := feedAll_append initState fs [f]
  rw [feedAll_single] at key
  obtain ⟨ht, hev, hvoice, harm, hseen, hbuf, as, bs, hdecomp, hsil, hsilval⟩ := h
  by_cases hbl : f.byteLength < 2
  · -- frame dropped by the byteLength guard
    have hfe : f.samples = [] := (byteLength_lt_two_iff f).mp hbl
    have hfeed : feed (feedAll initState fs).1 f = ((feedAll initState fs).1, none) := by
      unfold feed
      simp [ht, hbl]
    rw [hfeed] at key
    have hvm : voicedMs (fs ++ [f]) = voicedMs fs := by
      rw [voicedMs_append, voicedMs_single, effVoice_false_of_empty f hfe]
      simp
    have hsr : silentRun (fs ++ [f]) ↔ silentRun fs := by
      rw [silentRun_append_iff]
      have : silentRun [f] := by
        intro g hg
        simp at hg
        rw [hg]
        exact effVoice_false_of_empty f hfe
      tauto
    left
    refine ⟨?_, ?_, ?_, ?_, ?_, ?_, as, bs ++ [f], ?_, ?_, ?_⟩
    · rw [key]; exact ht
    · rw [key, hev]; simp
    · rw [key, hvm]; exact hvoice
    · rw [key, hvm]; exact harm
    · rw [key, hsr]; exact hseen
    · rw [key]
      by_cases hs : silentRun fs
      · have h1 : bufferSpec fs = [] := bufferSpec_of_silent fs hs
        have h2 : bufferSpec (fs ++ [f]) = [] := bufferSpec_of_silent _ (hsr.mpr hs)
        rw [h2, hbuf, h1]
      · rw [bufferSpec_append_seen_invalid fs f ((not_silentRun_iff fs).mp hs)
          (by unfold validFrame; simpa using hbl)]
        exact hbuf
    · rw [hdecomp, List.append_assoc]
    · rw [silentRun_append_iff]
      refine ⟨hsil, ?_⟩
      intro g hg
      simp at hg
      rw [hg]
      exact effVoice_false_of_empty f hfe
    · rw [key, durMs_append, durMs_single, durationMs_of_empty f hfe]
      simpa using hsilval
  · -- frame accepted
    have hbl2 : 2 ≤ f.byteLength := by omega
    have hvalid : validFrame f = true := validFrame_of_byteLength f hbl2
    by_cases hv : f.isVoice = true
    · -- voiced frame: silence counter cleared, can never fire on this call
      have hev2 : effVoice f = true := by rw [effVoice_valid f hbl2]; exact hv
      have hs2 : record (classify (feedAll initState fs).1 f) f =
          { totalSilenceMs := 0
            totalVoiceMs := (feedAll initState fs).1.totalVoiceMs + f.durationMs
            agentTriggered := (feedAll initState fs).1.agentTriggered
            armed :=
              if MIN_SPEECH_DURATION_MS ≤ (feedAll initState fs).1.totalVoiceMs + f.durationMs ∧
                  (feedAll initState fs).1.armed = false then true
              else (feedAll initState fs).1.armed
            hasSeenVoiceThisRound := true
            utteranceBuffer := (feedAll initState fs).1.utteranceBuffer ++ [f] } := by
        rw [classify_of_voice _ _ hv]
        rw [record_of_seen _ _ rfl]
      have hnotr : ¬ triggerCond (record (classify (feedAll initState fs).1 f) f) := by
        rw [hs2]
        unfold triggerCond
        intro hc
        have := hc.2
        norm_num [SILENCE_DURATION_MS] at this
      have hfeed : feed (feedAll initState fs).1 f =
          (record (classify (feedAll initState fs).1 f) f, none) := by
        rw [feed_untriggered_valid _ _ ht hbl2, if_neg hnotr]
      rw [hfeed] at key
      have hvm : voicedMs (fs ++ [f]) = voicedMs fs + f.durationMs := by
        rw [voicedMs_append, voicedMs_single, hev2]
        simp
      left
      refine ⟨?_, ?_, ?_, ?_, ?_, ?_, fs ++ [f], [], by simp, silentRun_nil, ?_⟩
      · rw [key]; simp only [hs2]; exact ht
      · rw [key, hev]; simp
      · rw [key]; simp only [hs2]; rw [hvoice, hvm]
      · rw [key]; simp only [hs2, hvm]
        simp only [hvoice]
        by_cases hsa : (feedAll initState fs).1.armed = true
        · have hq : MIN_SPEECH_DURATION_MS ≤ voicedMs fs := harm.mp hsa
          have hq2 : MIN_SPEECH_DURATION_MS ≤ voicedMs fs + f.durationMs := by
            have := durationMs_nonneg f
            linarith
          rw [hsa]
          simp only [hq2]
          simp
        · have hsa' : (feedAll initState fs).1.armed = false := by
            simpa using hsa
          rw [hsa']
          by_cases hq : MIN_SPEECH_DURATION_MS ≤ voicedMs fs + f.durationMs
          · simp [hq]
          · simp [hq]
      · rw [key]; simp only [hs2]
        simp only [true_iff, iff_true]
        rw [not_silentRun_iff]
        exact ⟨f, by simp, hev2⟩
      · rw [key]; simp only [hs2]
        rw [hbuf]
        by_cases hs : silentRun fs
        · rw [bufferSpec_of_silent fs hs, bufferSpec_append_first fs f hs hev2]
          simp
        · rw [bufferSpec_append_seen fs f ((not_silentRun_iff fs).mp hs) hvalid]
      · rw [key]; simp only [hs2]
        simp [durMs]
    · -- unvoiced frame: silence accumulates; the detector may fire here
      have hv' : f.isVoice = false := by simpa using hv
      have hev2 : effVoice f = false := by rw [effVoice_valid f hbl2]; exact hv'
      have hvm : voicedMs (fs ++ [f]) = voicedMs fs := by
        rw [voicedMs_append, voicedMs_single, hev2]
        simp
      have hsr : silentRun (fs ++ [f]) ↔ silentRun fs := by
        rw [silentRun_append_iff]
        have : silentRun [f] := by
          intro g hg
          simp at hg
          rw [hg]
          exact hev2
        tauto
      have hcl := classify_of_silence (feedAll initState fs).1 f hv'
      by_cases htr : triggerCond (record (classify (feedAll initState fs).1 f) f)
      · -- the detector fires
        have harm2 : (feedAll initState fs).1.armed = true := by
          have := htr.1
          rwa [record_armed, hcl] at this
        have hqu : MIN_SPEECH_DURATION_MS ≤ voicedMs fs := harm.mp harm2
        have hns : ¬ silentRun fs := voicedMs_pos_not_silent fs hqu
        have hseen2 : (feedAll initState fs).1.hasSeenVoiceThisRound = true := hseen.mpr hns
        have hsilver : SILENCE_DURATION_MS ≤
            (feedAll initState fs).1.totalSilenceMs + f.durationMs := by
          have := htr.2
          rwa [record_totalSilenceMs, hcl] at this
        have hs2 : record (classify (feedAll initState fs).1 f) f =
            { (feedAll initState fs).1 with
              totalSilenceMs := (feedAll initState fs).1.totalSilenceMs + f.durationMs
              utteranceBuffer := (feedAll initState fs).1.utteranceBuffer ++ [f] } := by
          rw [hcl]
          simp [record, hseen2]
        have hfeed : feed (feedAll initState fs).1 f =
            ({ record (classify (feedAll initState fs).1 f) f with agentTriggered := true },
              some (record (classify (feedAll initState fs).1 f) f).utteranceBuffer) := by
          rw [feed_untriggered_valid _ _ ht hbl2, if_pos htr]
        rw [hfeed] at key
        have hbuf2 : (record (classify (feedAll initState fs).1 f) f).utteranceBuffer =
            bufferSpec (fs ++ [f]) := by
          rw [hs2]
          simp only []
          rw [hbuf, bufferSpec_append_seen fs f ((not_silentRun_iff fs).mp hns) hvalid]
        right
        refine ⟨?_, fs ++ [f], [], by simp, ?_, ?_, as, bs ++ [f], ?_, ?_, ?_, ?_, ?_⟩
        · rw [key]
        · rw [key, hev, hbuf2]
          simp
        · rw [key]
          exact hbuf2
        · rw [hdecomp, List.append_assoc]
        · rw [silentRun_append_iff]
          refine ⟨hsil, ?_⟩
          intro g hg
          simp at hg
          rw [hg]
          exact hev2
        · simp
        · rw [durMs_append, durMs_single]
          rw [hsilval] at hsilver
          exact hsilver
        · have : voicedMs fs = voicedMs as := by
            rw [hdecomp, voicedMs_append, voicedMs_of_silentRun bs hsil]
            simp
          rwa [this] at hqu
      · -- silence accumulates but stays below the threshold
        have hfeed : feed (feedAll initState fs).1 f =
            (record (classify (feedAll initState fs).1 f) f, none) := by
          rw [feed_untriggered_valid _ _ ht hbl2, if_neg htr]
        rw [hfeed] at key
        left
        refine ⟨?_, ?_, ?_, ?_, ?_, ?_, as, bs ++ [f], ?_, ?_, ?_⟩
        · rw [key, record_agentTriggered, hcl]
          exact ht
        · rw [key, hev]; simp
        · rw [key, record_totalVoiceMs, hcl]
          simp only []
          rw [hvoice, hvm]
        · rw [key, record_armed, hcl]
          simp only []
          rw [hvm]
          exact harm
        · rw [key, record_hasSeen, hcl]
          simp only []
          rw [hsr]
          exact hseen
        · rw [key]
          by_cases hs : (feedAll initState fs).1.hasSeenVoiceThisRound = true
          · rw [record_of_seen _ _ (by rwa [hcl])]
            simp only []
            rw [hcl]
            simp only []
            rw [hbuf, bufferSpec_append_seen fs f
              ((not_silentRun_iff fs).mp (hseen.mp hs)) hvalid]
          · have hs' : (feedAll initState fs).1.hasSeenVoiceThisRound = false := by
              simpa using hs
            rw [record_of_not_seen _ _ (by rwa [hcl]), hcl]
            simp only []
            have hsilfs : silentRun fs := by
              by_contra hns
              exact hs (hseen.mpr hns)
            rw [hbuf, bufferSpec_of_silent fs hsilfs, bufferSpec_of_silent _ (hsr.mpr hsilfs)]
        · rw [hdecomp, List.append_assoc]
        · rw [silentRun_append_iff]
          refine ⟨hsil, ?_⟩
          intro g hg
          simp at hg
          rw [hg]
          exact hev2
        · rw [key, record_totalSilenceMs, hcl]
          simp only []
          rw [durMs_append, durMs_single, hsilval]

theorem triggered_step (fs : List Frame) (f : Frame) (h : TriggeredInv fs) :
    TriggeredInv (fs ++ [f]) := by
  have key := feedAll_append initState fs [f]
  rw [feedAll_single] at key
  obtain ⟨ht, pre, suf, hdecomp, hev, hbuf, as, bs, hpre, hsil, hne, hsl, hvq⟩ := h
  rw [feed_of_triggered _ _ ht] at key
  refine ⟨?_, pre, suf ++ [f], ?_, ?_, ?_, as, bs, hpre, hsil, hne, hsl, hvq⟩
  · rw [key]; exact ht
  · rw [hdecomp, List.append_assoc]
  · rw [key, hev]; simp
  · rw [key]; exact hbuf

/-- Every run of the detector from a fresh state is, after any frame
sequence, in exactly one of the two invariant classes. -/
theorem feedAll_spec (fs : List Frame) : UntriggeredInv fs ∨ TriggeredInv fs := by
  induction fs using List.reverseRecOn with
  | nil =>
    left
    refine ⟨rfl, rfl, ?_, ?_, ?_, ?_, [], [], rfl, silentRun_nil, ?_⟩
    · simp [feedAll, initState, voicedMs]
    · constructor
      · intro h
        simp [feedAll, initState] at h
      · intro h
        norm_num [voicedMs, MIN_SPEECH_DURATION_MS] at h
    · constructor
      · intro h
        simp [feedAll, initState] at h
      · intro h
        exact absurd silentRun_nil h
    · simp [feedAll, initState, bufferSpec]
    · simp [feedAll, initState, durMs]
  | append_singleton xs x ih =>
    rcases ih with h | h
    · exact untriggered_step xs x h
    · exact Or.inr (triggered_step xs x h)

end VAD

namespace VAD

theorem classify_totalVoiceMs (s : VADState) (f : Frame) :
    (classify s f).totalVoiceMs =
      if f.isVoice = true then s.totalVoiceMs + f.durationMs else s.totalVoiceMs := by
  unfold classify
  split <;> simp_all

theorem feed_totalVoice_mono (s : VADState) (f : Frame) :
    s.totalVoiceMs ≤ (feed s f).1.totalVoiceMs := by
  unfold feed
  by_cases h1 : s.agentTriggered = true
  · simp [h1]
  · by_cases h2 : f.byteLength < 2
    · simp [h1, h2]
    · by_cases h3 : triggerCond (record (classify s f) f) <;>
        simp only [h1, h2, h3, Bool.false_eq_true, if_false, if_true, if_neg, if_pos] <;>
        rw [record_totalVoiceMs, classify_totalVoiceMs] <;>
        split <;>
        simp [durationMs_nonneg f, le_add_of_nonneg_right]

theorem feed_totalVoice_of_unvoiced (s : VADState) (f : Frame) (hf : f.isVoice = false) :
    (feed s f).1.totalVoiceMs = s.totalVoiceMs := by
  unfold feed
  by_cases h1 : s.agentTriggered = true
  · simp [h1]
  · by_cases h2 : f.byteLength < 2
    · simp [h1, h2]
    · by_cases h3 : triggerCond (record (classify s f) f) <;>
        simp only [h1, h2, h3, Bool.false_eq_true, if_false, if_true, if_neg, if_pos] <;>
        rw [record_totalVoiceMs, classify_totalVoiceMs] <;>
        simp [hf]

/-- A 500 ms frame of above-threshold energy (one sample of value 400 at
sample rate 2: rms 400 > 300). -/
def voiceFrame : Frame := ⟨[400], 2⟩

/-- A 400 ms frame of silence (two zero samples at sample rate 5). -/
def silenceFrame : Frame := ⟨[0, 0], 5⟩

/-- 3.5 s of voiced frames followed by 3.2 s of silent frames. -/
def scenario : List Frame := List.replicate 7 voiceFrame ++ List.replicate 8 silenceFrame

/-- 2.5 s of voiced frames (below the 3 s quota) followed by 8 s of silence. -/
def shortBurst : List Frame := List.replicate 5 voiceFrame ++ List.replicate 20 silenceFrame

/-- Two non-contiguous 2 s voiced bursts separated by 2 s of silence. -/
def twoBursts : List Frame :=
  List.replicate 4 voiceFrame ++ List.replicate 5 silenceFrame ++ List.replicate 4 voiceFrame

end VAD

namespace VAD

theorem scenario_events : (feedAll initState scenario).2 = [scenario] := by
  norm_num [scenario, List.replicate, feedAll, feed, classify, record, triggerCond, initState,
    voiceFrame, silenceFrame, Frame.durationMs, Frame.isVoice, Frame.byteLength, sumSquares,
    SILENCE_DURATION_MS, MIN_SPEECH_DURATION_MS, ENERGY_THRESHOLD]

theorem scenario_durMs : durMs scenario = 6700 := by
  norm_num [scenario, List.replicate, durMs, voiceFrame, silenceFrame, Frame.durationMs]

theorem scenario_triggered : (feedAll initState scenario).1.agentTriggered = true := by
  norm_num [scenario, List.replicate, feedAll, feed, classify, record, triggerCond, initState,
    voiceFrame, silenceFrame, Frame.durationMs, Frame.isVoice, Frame.byteLength, sumSquares,
    SILENCE_DURATION_MS, MIN_SPEECH_DURATION_MS, ENERGY_THRESHOLD]

theorem shortBurst_voicedMs : voicedMs shortBurst < MIN_SPEECH_DURATION_MS := by
  norm_num [shortBurst, List.replicate, voicedMs, effVoice, voiceFrame, silenceFrame,
    Frame.durationMs, Frame.isVoice, Frame.byteLength, sumSquares, List.filter,
    MIN_SPEECH_DURATION_MS, ENERGY_THRESHOLD]

theorem twoBursts_events : (feedAll initState twoBursts).2 = [] := by
  norm_num [twoBursts, List.replicate, feedAll, feed, classify, record, triggerCond, initState,
    voiceFrame, silenceFrame, Frame.durationMs, Frame.isVoice, Frame.byteLength, sumSquares,
    SILENCE_DURATION_MS, MIN_SPEECH_DURATION_MS, ENERGY_THRESHOLD]

theorem scenario_frames_valid : ∀ f ∈ scenario, 2 ≤ f.byteLength := by decide

/-- Claim C1: for every frame sequence fed between two reset() calls, the
trigger callback fires at most once; it fires only after cumulative voiced
duration has reached the 3000 ms speech quota and an unbroken trailing run of
non-voiced frames has then accumulated at least the 3000 ms silence
threshold; a sequence whose total voiced duration is below the quota
(in particular a single short voiced burst followed by arbitrary silence)
never triggers; and after the trigger every feed() call is a no-op until
reset(). -/
theorem vad_trigger_at_most_once_and_only_after_quota_silence (fs : List Frame) :
    (feedAll initState fs).2.length ≤ 1 ∧
    (∀ b, (feedAll initState fs).2 = [b] →
      ∃ pre suf as bs, fs = pre ++ suf ∧ pre = as ++ bs ∧ silentRun bs ∧
        SILENCE_DURATION_MS ≤ durMs bs ∧ MIN_SPEECH_DURATION_MS ≤ voicedMs as) ∧
    (voicedMs fs < MIN_SPEECH_DURATION_MS → (feedAll initState fs).2 = []) ∧
    ((feedAll initState fs).1.agentTriggered = true →
      ∀ g, feed (feedAll initState fs).1 g = ((feedAll initState fs).1, none)) := by
  refine ⟨feedAll_events_le_one initState fs, ?_, ?_, ?_⟩
  · intro b hb
    rcases feedAll_spec fs with h | h
    · rw [h.2.1] at hb
      simp at hb
    · obtain ⟨_, pre, suf, hdec, _, _, as, bs, hpre, hsil, _, hsl, hvq⟩ := h
      exact ⟨pre, suf, as, bs, hdec, hpre, hsil, hsl, hvq⟩
  · intro hlt
    rcases feedAll_spec fs with h | h
    · exact h.2.1
    · obtain ⟨_, pre, suf, hdec, _, _, as, bs, hpre, hsil, _, _, hvq⟩ := h
      exfalso
      have h1 : voicedMs fs = voicedMs as + voicedMs bs + voicedMs suf := by
        rw [hdec, hpre, voicedMs_append, voicedMs_append]
      have h2 := voicedMs_nonneg bs
      have h3 := voicedMs_nonneg suf
      rw [h1] at hlt
      linarith
  · intro ht g
    exact feed_of_triggered _ g ht

/-- Closed witness for the C1 theorem, applying it to the concrete 3.5 s
voice / 3.2 s silence scenario and to the 2.5 s short-burst scenario. -/
theorem vad_trigger_at_most_once_witness :
    (∃ pre suf as bs, scenario = pre ++ suf ∧ pre = as ++ bs ∧ silentRun bs ∧
      SILENCE_DURATION_MS ≤ durMs bs ∧ MIN_SPEECH_DURATION_MS ≤ voicedMs as) ∧
    (feedAll initState shortBurst).2 = [] ∧
    feed (feedAll initState scenario).1 silenceFrame = ((feedAll initState scenario).1, none) :=
  ⟨(vad_trigger_at_most_once_and_only_after_quota_silence scenario).2.1 scenario scenario_events,
   (vad_trigger_at_most_once_and_only_after_quota_silence shortBurst).2.2.1 shortBurst_voicedMs,
   (vad_trigger_at_most_once_and_only_after_quota_silence scenario).2.2.2
     scenario_triggered silenceFrame⟩

/-- Claim C9: for a run that fires, the callback payload (and the final
utterance buffer) is exactly the fed sequence from the first voiced frame up
to and including the frame on which the trigger fired — voiced and non-voiced
frames alike; on the concrete 3.5 s voice + 3.2 s silence scenario there is
exactly one trigger and the buffer spans the whole 6700 ms of frames. -/
theorem vad_buffer_spans_first_voice_to_trigger :
    (∀ fs b, (∀ f ∈ fs, 2 ≤ f.byteLength) → (feedAll initState fs).2 = [b] →
      ∃ pre suf, fs = pre ++ suf ∧
        b = pre.dropWhile (fun f => !effVoice f) ∧
        (feedAll initState fs).1.utteranceBuffer = b) ∧
    ((feedAll initState scenario).2 = [scenario] ∧ durMs scenario = 6700) := by
  constructor
  · intro fs b hval hb
    rcases feedAll_spec fs with h | h
    · rw [h.2.1] at hb
      simp at hb
    · obtain ⟨_, pre, suf, hdec, hev, hbuf, _⟩ := h
      rw [hb] at hev
      have hb2 : b = bufferSpec pre := by
        simpa using hev
      have hfil : bufferSpec pre = pre.dropWhile (fun f => !effVoice f) := by
        unfold bufferSpec
        apply List.filter_eq_self.mpr
        intro a ha
        have ha2 : a ∈ pre := (List.dropWhile_sublist _).subset ha
        have ha3 : a ∈ fs := by
          rw [hdec]
          exact List.mem_append.mpr (Or.inl ha2)
        exact validFrame_of_byteLength a (hval a ha3)
      exact ⟨pre, suf, hdec, by rw [hb2, hfil], by rw [hbuf, hb2]⟩
  · exact ⟨scenario_events, scenario_durMs⟩

/-- Closed witness for the C9 theorem at the concrete scenario. -/
theorem vad_buffer_spans_witness :
    ∃ pre suf, scenario = pre ++ suf ∧
      scenario = pre.dropWhile (fun f => !effVoice f) ∧
      (feedAll initState scenario).1.utteranceBuffer = scenario :=
  vad_buffer_spans_first_voice_to_trigger.1 scenario scenario
    scenario_frames_valid scenario_events

/-- Claim C10: the accumulated voiced duration never decreases across feed()
calls (non-voiced frames leave it untouched), and in an untriggered run it
equals the total voiced duration of the frames fed so far, with the armed
flag set exactly when that total has reached the quota — so several
non-contiguous short bursts can arm the detector together, as the concrete
two-burst run shows. -/
theorem vad_voiced_duration_monotone :
    (∀ s f, s.totalVoiceMs ≤ (feed s f).1.totalVoiceMs) ∧
    (∀ s f, f.isVoice = false → (feed s f).1.totalVoiceMs = s.totalVoiceMs) ∧
    (∀ fs, (feedAll initState fs).2 = [] →
      (feedAll initState fs).1.totalVoiceMs = voicedMs fs ∧
      ((feedAll initState fs).1.armed = true ↔ MIN_SPEECH_DURATION_MS ≤ voicedMs fs)) ∧
    ((feedAll initState twoBursts).1.armed = true ∧ (feedAll initState twoBursts).2 = []) := by
  refine ⟨feed_totalVoice_mono, feed_totalVoice_of_unvoiced, ?_, ?_, twoBursts_events⟩
  · intro fs hfs
    rcases feedAll_spec fs with h | h
    · exact ⟨h.2.2.1, h.2.2.2.1⟩
    · obtain ⟨_, pre, suf, _, hev, _⟩ := h
      rw [hfs] at hev
      simp at hev
  · norm_num [twoBursts, List.replicate, feedAll, feed, classify, record, triggerCond, initState,
      voiceFrame, silenceFrame, Frame.durationMs, Frame.isVoice, Frame.byteLength, sumSquares,
      SILENCE_DURATION_MS, MIN_SPEECH_DURATION_MS, ENERGY_THRESHOLD]

/-- Closed witness for the C10 theorem, applying it at a concrete state and
at the concrete two-burst run. -/
theorem vad_voiced_duration_monotone_witness :
    (feed initState silenceFrame).1.totalVoiceMs = initState.totalVoiceMs ∧
    ((feedAll initState twoBursts).1.totalVoiceMs = voicedMs twoBursts ∧
      ((feedAll initState twoBursts).1.armed = true ↔
        MIN_SPEECH_DURATION_MS ≤ voicedMs twoBursts)) :=
  ⟨vad_voiced_duration_monotone.2.1 initState silenceFrame (by decide),
   vad_voiced_duration_monotone.2.2.1 twoBursts twoBursts_events⟩

end VAD

namespace Controller

/-- Events seen by one connection's controller loop in index.js: an audio
frame delivered by the RTCAudioSink to vad.feed, or the settling
(fulfillment or rejection) of the in-flight STT → agent run, whose .then and
.catch handlers both call vad.reset(). -/
inductive Ev
  | frame (f : VAD.Frame)
  | complete
deriving DecidableEq

/-- Per-connection controller state: the VAD closure plus whether a run
spawned by the VAD callback is still outstanding. -/
structure CtrlState where
  vad : VAD.VADState
  running : Bool
deriving DecidableEq

/-- State after tryStartVAD: a fresh VAD, no run outstanding. -/
def ctrlInit : CtrlState := ⟨VAD.initState, false⟩

/-- One controller transition.  The Bool reports whether this event spawned
the STT → agent run (i.e. the VAD callback fired on this frame). -/
def ctrlStep (s : CtrlState) : Ev → CtrlState × Bool
  | .frame f =>
    let r := VAD.feed s.vad f
    match r.2 with
    | some _ => ({ vad := r.1, running := true }, true)
    | none => ({ s with vad := r.1 }, false)
  | .complete =>
    if s.running then ({ vad := VAD.reset s.vad, running := false }, false)
    else (s, false)

/-- Run a whole event sequence, counting spawned runs. -/
def ctrlRun (s : CtrlState) : List Ev → CtrlState × ℕ
  | [] => (s, 0)
  | e :: es =>
    let r := ctrlStep s e
    let rest := ctrlRun r.1 es
    (rest.1, (if r.2 then 1 else 0) + rest.2)

theorem ctrlStep_frame_none (s : CtrlState) (f : VAD.Frame)
    (hf : (VAD.feed s.vad f).2 = none) :
    ctrlStep s (.frame f) = ({ s with vad := (VAD.feed s.vad f).1 }, false) := by
  simp only [ctrlStep]
  rw [hf]

theorem ctrlStep_frame_some (s : CtrlState) (f : VAD.Frame) (b : List VAD.Frame)
    (hf : (VAD.feed s.vad f).2 = some b) :
    ctrlStep s (.frame f) = ({ vad := (VAD.feed s.vad f).1, running := true }, true) := by
  simp only [ctrlStep]
  rw [hf]

theorem ctrlStep_complete_of_running (s : CtrlState) (hr : s.running = true) :
    ctrlStep s Ev.complete = (⟨VAD.initState, false⟩, false) := by
  simp only [ctrlStep]
  simp [hr, VAD.reset]

theorem ctrlStep_complete_of_idle (s : CtrlState) (hr : s.running = false) :
    ctrlStep s Ev.complete = (s, false) := by
  simp only [ctrlStep]
  simp [hr]

theorem ctrlStep_inv (s : CtrlState) (e : Ev)
    (h : s.running = s.vad.agentTriggered) :
    (ctrlStep s e).1.running = (ctrlStep s e).1.vad.agentTriggered := by
  cases e with
  | frame f =>
    rcases hf : (VAD.feed s.vad f).2 with _ | b
    · rw [ctrlStep_frame_none s f hf]
      have := VAD.feed_no_event_triggered s.vad f hf
      simp only []
      rw [h, this]
    · rw [ctrlStep_frame_some s f b hf]
      have := VAD.feed_event_triggered s.vad f b hf
      simp only []
      rw [this]
  | complete =>
    by_cases hr : s.running = true
    · rw [ctrlStep_complete_of_running s hr]
      rfl
    · have hr2 : s.running = false := by simpa using hr
      rw [ctrlStep_complete_of_idle s hr2]
      exact h

theorem ctrlRun_inv (s : CtrlState) (evs : List Ev)
    (h : s.running = s.vad.agentTriggered) :
    (ctrlRun s evs).1.running = (ctrlRun s evs).1.vad.agentTriggered := by
  induction evs generalizing s with
  | nil => exact h
  | cons e es ih =>
    unfold ctrlRun
    exact ih (ctrlStep s e).1 (ctrlStep_inv s e h)

theorem ctrlStep_frame_of_running (s : CtrlState) (f : VAD.Frame)
    (hr : s.running = true) (ht : s.vad.agentTriggered = true) :
    ctrlStep s (.frame f) = (s, false) := by
  have hf : (VAD.feed s.vad f).2 = none := by
    rw [VAD.feed_of_triggered s.vad f ht]
  rw [ctrlStep_frame_none s f hf]
  rw [VAD.feed_of_triggered s.vad f ht]

theorem ctrlRun_count_bound (s : CtrlState) (evs : List Ev)
    (hnc : ∀ e ∈ evs, e ≠ Ev.complete) (h : s.running = s.vad.agentTriggered) :
    (ctrlRun s evs).2 ≤ if s.running then 0 else 1 := by
  induction evs generalizing s with
  | nil => simp [ctrlRun]
  | cons e es ih =>
    cases e with
    | complete => exact absurd rfl (hnc Ev.complete (by simp))
    | frame f =>
      have hnc2 : ∀ e ∈ es, e ≠ Ev.complete := fun e he => hnc e (by simp [he])
      by_cases hr : s.running = true
      · have ht : s.vad.agentTriggered = true := by rw [← h]; exact hr
        unfold ctrlRun
        rw [ctrlStep_frame_of_running s f hr ht]
        have := ih s hnc2 h
        simp only [hr] at this ⊢
        simpa using this
      · have hr2 : s.running = false := by simpa using hr
        rcases hf : (VAD.feed s.vad f).2 with _ | b
        · unfold ctrlRun
          rw [ctrlStep_frame_none s f hf]
          have hpres := VAD.feed_no_event_triggered s.vad f hf
          have hinv2 : ({ s with vad := (VAD.feed s.vad f).1 } : CtrlState).running =
              ({ s with vad := (VAD.feed s.vad f).1 } : CtrlState).vad.agentTriggered := by
            simp only []
            rw [h, hpres]
          have := ih { s with vad := (VAD.feed s.vad f).1 } hnc2 hinv2
          simp only [hr2] at this ⊢
          simpa using this
        · unfold ctrlRun
          rw [ctrlStep_frame_some s f b hf]
          have htrig := VAD.feed_event_triggered s.vad f b hf
          have hinv2 : ({ vad := (VAD.feed s.vad f).1, running := true } : CtrlState).running =
              ({ vad := (VAD.feed s.vad f).1, running := true } : CtrlState).vad.agentTriggered := by
            simp only []
            rw [htrig]
          have := ih { vad := (VAD.feed s.vad f).1, running := true } hnc2 hinv2
          simp at this
          simp [hr2]
          omega

end Controller

namespace Controller

/-- Claim C5: per session at most one transcription-plus-response run is in
flight: the outstanding-run flag always coincides with the detector's
triggered flag, so while a run is outstanding every frame event is a no-op
that cannot spawn a second run; any window of events without a completion
spawns at most one run; and completion of the run — fulfilled or rejected —
calls the detector's reset(), re-arming listening. -/
theorem controller_single_run_in_flight :
    (∀ evs, (ctrlRun ctrlInit evs).1.running = (ctrlRun ctrlInit evs).1.vad.agentTriggered) ∧
    (∀ s f, s.running = true → s.vad.agentTriggered = true →
      ctrlStep s (Ev.frame f) = (s, false)) ∧
    (∀ s evs, (∀ e ∈ evs, e ≠ Ev.complete) → s.running = s.vad.agentTriggered →
      (ctrlRun s evs).2 ≤ 1) ∧
    (∀ s, s.running = true → ctrlStep s Ev.complete = (⟨VAD.initState, false⟩, false)) := by
  refine ⟨?_, ctrlStep_frame_of_running, ?_, ctrlStep_complete_of_running⟩
  · intro evs
    exact ctrlRun_inv ctrlInit evs rfl
  · intro s evs hnc h
    have := ctrlRun_count_bound s evs hnc h
    split at this
    · omega
    · exact this

/-- Closed witness for the C5 theorem: after the concrete triggering
scenario the controller ignores further frames, any frame-only window
spawns at most one run, and completion resets the detector. -/
theorem controller_single_run_witness :
    ctrlStep ⟨(VAD.feedAll VAD.initState VAD.scenario).1, true⟩ (Ev.frame VAD.silenceFrame) =
      (⟨(VAD.feedAll VAD.initState VAD.scenario).1, true⟩, false) ∧
    (ctrlRun ctrlInit (VAD.scenario.map Ev.frame)).2 ≤ 1 ∧
    ctrlStep ⟨(VAD.feedAll VAD.initState VAD.scenario).1, true⟩ Ev.complete =
      (⟨VAD.initState, false⟩, false) :=
  ⟨controller_single_run_in_flight.2.1 _ VAD.silenceFrame rfl VAD.scenario_triggered,
   controller_single_run_in_flight.2.2.1 ctrlInit _ (by decide) rfl,
   controller_single_run_in_flight.2.2.2 _ rfl⟩

end Controller

namespace Playback

/-- The per-turn mutable refs of useStreamingPlayback.ts.  Bytes are opaque
to the hook (it only concatenates them and hands them to the platform
decoder), so they are embedded as naturals.  segments and consumed are ghost
fields recording, for each successful decode, the scheduled source
(start time, duration, in seconds) and the byte snapshot handed to
decodeAudioData; the remaining fields are the refs of the hook. -/
structure PBState where
  pending : List ℕ
  inFlight : Option (List ℕ)
  ended : Bool
  nextStartTime : ℚ
  streamStartTime : ℚ
  streamingDurationMs : ℚ
  isStreaming : Bool
  segments : List (ℚ × ℚ)
  consumed : List (List ℕ)
deriving DecidableEq

/-- Fresh refs of the hook (also the state after the reset effect). -/
def pbInit : PBState :=
  { pending := []
    inFlight := none
    ended := false
    nextStartTime := 0
    streamStartTime := 0
    streamingDurationMs := 0
    isStreaming := false
    segments := []
    consumed := [] }

/-- tryDecodeAndPlay up to the point where decodeAudioData is called: if
there are pending bytes and no decode is in flight, a decode of the whole
pending buffer starts (its completion arrives later as a result event). -/
def tryDecodeAndPlay (s : PBState) : PBState :=
  if s.pending = [] then s
  else if s.inFlight.isSome then s
  else { s with inFlight := some s.pending }

/-- Events driving the hook: a batch of chunks appended to streamedChunks
(the chunk effect), completion of the in-flight decodeAudioData call at
audio-clock time t, and the streamEnded flag turning true. -/
inductive PBEvent
  | chunk (bs : List ℕ)
  | result (t : ℚ)
  | streamEnd
deriving DecidableEq

/-- The then-branch of a successful decode: anchor the timeline on the first
decode, schedule the buffer at the cursor, advance the cursor by its
duration, refresh the duration ref and clear pending. -/
def schedule (s : PBState) (snap : List ℕ) (d t : ℚ) : PBState :=
  let anchored :=
    if s.nextStartTime = 0 then
      { s with streamStartTime := t, nextStartTime := t, isStreaming := true }
    else s
  let start := anchored.nextStartTime
  { anchored with
    nextStartTime := start + d
    streamingDurationMs := (start + d - anchored.streamStartTime) * 1000
    pending := []
    segments := anchored.segments ++ [(start, d)]
    consumed := anchored.consumed ++ [snap] }

/-- One transition of the hook.  dec is the platform decoder: the duration
(seconds) of a byte string when it is decodable, none otherwise. -/
def pbStep (dec : List ℕ → Option ℚ) (s : PBState) : PBEvent → PBState
  | .chunk bs => tryDecodeAndPlay { s with pending := s.pending ++ bs }
  | .streamEnd => tryDecodeAndPlay { s with ended := true }
  | .result t =>
    match s.inFlight with
    | none => s
    | some snap =>
      let s0 := { s with inFlight := none }
      match dec snap with
      | none => s0
      | some d => schedule s0 snap d t

/-- Folding a whole event sequence. -/
def pbRun (dec : List ℕ → Option ℚ) (s : PBState) : List PBEvent → PBState
  | [] => s
  | e :: es => pbRun dec (pbStep dec s e) es

/-- One frame of the requestAnimationFrame loop of the hook at audio-clock
time now: updates the elapsed-time ref and, when the end-of-turn flag is set
and elapsed has reached the scheduled duration, stops streaming and fires
onStreamingEnd (the Bool).  The loop only runs while isStreaming. -/
def tick (s : PBState) (now : ℚ) : PBState × Bool :=
  if s.isStreaming = false then (s, false)
  else if s.ended = true ∧ s.streamingDurationMs ≤ max 0 ((now - s.streamStartTime) * 1000) ∧
      0 < s.streamingDurationMs / 1000 then
    ({ s with isStreaming := false }, true)
  else (s, false)

/-- A run of animation frames, counting onStreamingEnd invocations. -/
def tickRun (s : PBState) : List ℚ → PBState × ℕ
  | [] => (s, 0)
  | t :: ts =>
    let r := tick s t
    let rest := tickRun r.1 ts
    (rest.1, (if r.2 then 1 else 0) + rest.2)

/-- chain c l e: the sources of l are scheduled back to back, the first at
cursor c, each next one exactly where the previous ends, ending at cursor e. -/
def chain : ℚ → List (ℚ × ℚ) → ℚ → Prop
  | c, [], e => e = c
  | c, (a, d) :: rest, e => a = c ∧ chain (a + d) rest e

/-- Total duration of a list of scheduled segments. -/
def sumDurs (l : List (ℚ × ℚ)) : ℚ := (l.map Prod.snd).sum

/-- Timeline invariant of the hook's refs. -/
def goodState (s : PBState) : Prop :=
  (∀ p ∈ s.segments, 0 < p.2) ∧
  (s.segments = [] →
    s.nextStartTime = 0 ∧ s.streamStartTime = 0 ∧ s.streamingDurationMs = 0 ∧
      s.isStreaming = false) ∧
  (s.segments ≠ [] →
    0 ≤ s.streamStartTime ∧ 0 < s.nextStartTime ∧ s.isStreaming = true ∧
      chain s.streamStartTime s.segments s.nextStartTime ∧
      s.streamingDurationMs = (s.nextStartTime - s.streamStartTime) * 1000) ∧
  s.segments.length = s.consumed.length

theorem chain_append_one (c e d : ℚ) (l : List (ℚ × ℚ)) (h : chain c l e) :
    chain c (l ++ [(e, d)]) (e + d) := by
  induction l generalizing c with
  | nil =>
    unfold chain at h
    subst h
    exact ⟨rfl, rfl⟩
  | cons x rest ih =>
    rcases x with ⟨a, dd⟩
    obtain ⟨h1, h2⟩ := h
    exact ⟨h1, ih (a + dd) h2⟩

theorem chain_sum (l : List (ℚ × ℚ)) (c e : ℚ) (h : chain c l e) : e = c + sumDurs l := by
  induction l generalizing c with
  | nil =>
    unfold chain at h
    simp [sumDurs, h]
  | cons x rest ih =>
    rcases x with ⟨a, d⟩
    obtain ⟨h1, h2⟩ := h
    have := ih (a + d) h2
    subst h1
    simp [sumDurs] at this ⊢
    linarith

end Playback

namespace Playback

theorem goodState_pbInit : goodState pbInit := by
  refine ⟨?_, ?_, ?_, rfl⟩ <;> simp [pbInit]

theorem schedule_eq_anchor (s : PBState) (snap : List ℕ) (d t : ℚ)
    (h0 : s.nextStartTime = 0) :
    schedule s snap d t =
      { s with
        streamStartTime := t
        nextStartTime := t + d
        streamingDurationMs := (t + d - t) * 1000
        isStreaming := true
        pending := []
        segments := s.segments ++ [(t, d)]
        consumed := s.consumed ++ [snap] } := by
  simp [schedule, h0]

theorem schedule_eq_cursor (s : PBState) (snap : List ℕ) (d t : ℚ)
    (h0 : ¬ s.nextStartTime = 0) :
    schedule s snap d t =
      { s with
        nextStartTime := s.nextStartTime + d
        streamingDurationMs := (s.nextStartTime + d - s.streamStartTime) * 1000
        pending := []
        segments := s.segments ++ [(s.nextStartTime, d)]
        consumed := s.consumed ++ [snap] } := by
  simp [schedule, h0]

theorem schedule_props (s : PBState) (snap : List ℕ) (d t : ℚ)
    (hs : goodState s) (hd : 0 < d) (ht : 0 ≤ t) :
    goodState (schedule s snap d t) ∧
    sumDurs (schedule s snap d t).segments = sumDurs s.segments + d ∧
    (schedule s snap d t).segments.length = s.segments.length + 1 ∧
    (schedule s snap d t).pending = [] ∧
    (schedule s snap d t).segments ≠ [] ∧
    (schedule s snap d t).ended = s.ended ∧
    (schedule s snap d t).inFlight = s.inFlight := by
  obtain ⟨hpos, hnil, hcons, hlen⟩ := hs
  by_cases h0 : s.nextStartTime = 0
  · have hseg : s.segments = [] := by
      by_contra hne
      have := (hcons hne).2.1
      rw [h0] at this
      exact lt_irrefl 0 this
    have hcons0 : s.consumed = [] := by
      rw [hseg] at hlen
      exact List.length_eq_zero.mp hlen.symm
    rw [schedule_eq_anchor s snap d t h0, hseg, hcons0]
    refine ⟨⟨?_, ?_, ?_, ?_⟩, ?_, ?_, rfl, ?_, rfl, rfl⟩
    · intro p hp
      simp at hp
      subst hp
      exact hd
    · intro habs
      simp at habs
    · intro _
      refine ⟨ht, (by linarith : (0:ℚ) < t + d), rfl, ?_, rfl⟩
      exact ⟨rfl, rfl⟩
    · simp
    · simp [sumDurs]
    · simp
    · simp
  · have hseg : s.segments ≠ [] := by
      intro habs
      exact h0 (hnil habs).1
    obtain ⟨hst, hnx, hstr, hch, hdur⟩ := hcons hseg
    rw [schedule_eq_cursor s snap d t h0]
    refine ⟨⟨?_, ?_, ?_, ?_⟩, ?_, ?_, rfl, ?_, rfl, rfl⟩
    · intro p hp
      rcases List.mem_append.mp hp with h | h
      · exact hpos p h
      · simp at h
        subst h
        exact hd
    · intro habs
      simp at habs
    · intro _
      refine ⟨hst, (by linarith : (0:ℚ) < s.nextStartTime + d), hstr, ?_, rfl⟩
      exact chain_append_one _ _ _ _ hch
    · simp [hlen]
    · simp [sumDurs]
    · simp
    · simp

theorem tryDecodeAndPlay_fields (s : PBState) :
    (tryDecodeAndPlay s).segments = s.segments ∧
    (tryDecodeAndPlay s).consumed = s.consumed ∧
    (tryDecodeAndPlay s).nextStartTime = s.nextStartTime ∧
    (tryDecodeAndPlay s).streamStartTime = s.streamStartTime ∧
    (tryDecodeAndPlay s).streamingDurationMs = s.streamingDurationMs ∧
    (tryDecodeAndPlay s).isStreaming = s.isStreaming ∧
    (tryDecodeAndPlay s).ended = s.ended ∧
    (tryDecodeAndPlay s).pending = s.pending := by
  unfold tryDecodeAndPlay
  split
  · exact ⟨rfl, rfl, rfl, rfl, rfl, rfl, rfl, rfl⟩
  · split <;> exact ⟨rfl, rfl, rfl, rfl, rfl, rfl, rfl, rfl⟩

theorem goodState_tryDecodeAndPlay (s : PBState) (hs : goodState s) :
    goodState (tryDecodeAndPlay s) := by
  unfold tryDecodeAndPlay
  split
  · exact hs
  · split
    · exact hs
    · exact hs

theorem pbStep_good (dec : List ℕ → Option ℚ)
    (hdec : ∀ bs q, dec bs = some q → 0 < q)
    (s : PBState) (e : PBEvent) (hs : goodState s)
    (hts : ∀ t, e = PBEvent.result t → 0 ≤ t) :
    goodState (pbStep dec s e) := by
  cases e with
  | chunk bs =>
    exact goodState_tryDecodeAndPlay _ hs
  | streamEnd =>
    exact goodState_tryDecodeAndPlay _ hs
  | result t =>
    rcases hf : s.inFlight with _ | snap
    · simp only [pbStep, hf]
      exact hs
    · rcases hq : dec snap with _ | d
      · simp only [pbStep, hf, hq]
        exact hs
      · simp only [pbStep, hf, hq]
        exact (schedule_props { s with inFlight := none } snap d t hs
          (hdec snap d hq) (hts t rfl)).1

theorem pbRun_good (dec : List ℕ → Option ℚ)
    (hdec : ∀ bs q, dec bs = some q → 0 < q)
    (s : PBState) (evs : List PBEvent) (hs : goodState s)
    (hts : ∀ t, PBEvent.result t ∈ evs → 0 ≤ t) :
    goodState (pbRun dec s evs) := by
  induction evs generalizing s with
  | nil => exact hs
  | cons e es ih =>
    unfold pbRun
    refine ih (pbStep dec s e) ?_ ?_
    · exact pbStep_good dec hdec s e hs fun t hte => hts t (by rw [hte]; simp)
    · intro t htm
      exact hts t (by simp [htm])

end Playback

namespace Playback

theorem tick_idle (s : PBState) (t : ℚ) (h : s.isStreaming = false) :
    tick s t = (s, false) := by
  unfold tick
  rw [if_pos h]

theorem tick_not_fired (s : PBState) (t : ℚ) (h : (tick s t).2 = false) :
    (tick s t).1 = s := by
  unfold tick at h ⊢
  by_cases h1 : s.isStreaming = false
  · rw [if_pos h1]
  · rw [if_neg h1] at h ⊢
    by_cases h2 : s.ended = true ∧
        s.streamingDurationMs ≤ max 0 ((t - s.streamStartTime) * 1000) ∧
        0 < s.streamingDurationMs / 1000
    · rw [if_pos h2] at h
      simp at h
    · rw [if_neg h2]

theorem tick_fired_stops (s : PBState) (t : ℚ) (h : (tick s t).2 = true) :
    (tick s t).1.isStreaming = false := by
  unfold tick at h ⊢
  by_cases h1 : s.isStreaming = false
  · rw [if_pos h1] at h
    simp at h
  · rw [if_neg h1] at h ⊢
    by_cases h2 : s.ended = true ∧
        s.streamingDurationMs ≤ max 0 ((t - s.streamStartTime) * 1000) ∧
        0 < s.streamingDurationMs / 1000
    · rw [if_pos h2]
    · rw [if_neg h2] at h
      simp at h

theorem tickRun_idle (s : PBState) (ts : List ℚ) (h : s.isStreaming = false) :
    tickRun s ts = (s, 0) := by
  induction ts with
  | nil => rfl
  | cons t ts ih =>
    unfold tickRun
    rw [tick_idle s t h]
    simp [ih]

theorem sumDurs_pos (l : List (ℚ × ℚ)) (hne : l ≠ []) (hpos : ∀ p ∈ l, 0 < p.2) :
    0 < sumDurs l := by
  unfold sumDurs
  apply List.sum_pos
  · intro x hx
    rcases List.mem_map.mp hx with ⟨p, hp, rfl⟩
    exact hpos p hp
  · simpa using hne

/-- Claim C3: the turn-completion callback onStreamingEnd fires on a tick of
an active streaming turn exactly when the end-of-turn flag has been received
and the elapsed-time reference has reached the total-scheduled-duration
reference; it never fires while elapsed is below the scheduled duration
(even if every byte has been decoded); it fires at most once per turn; and
in every reachable streaming state the scheduled duration is positive, so
the activity condition is not vacuous. -/
theorem playback_completion_fires_iff :
    (∀ s now, s.isStreaming = true → 0 < s.streamingDurationMs →
      ((tick s now).2 = true ↔
        s.ended = true ∧
          s.streamingDurationMs ≤ max 0 ((now - s.streamStartTime) * 1000))) ∧
    (∀ s now, max 0 ((now - s.streamStartTime) * 1000) < s.streamingDurationMs →
      (tick s now).2 = false) ∧
    (∀ s ts, (tickRun s ts).2 ≤ 1) ∧
    (∀ dec evs, (∀ bs q, dec bs = some q → 0 < q) →
      (∀ t, PBEvent.result t ∈ evs → 0 ≤ t) →
      (pbRun dec pbInit evs).isStreaming = true →
      0 < (pbRun dec pbInit evs).streamingDurationMs) := by
  refine ⟨?_, ?_, ?_, ?_⟩
  · intro s now hstr hdur
    unfold tick
    rw [if_neg (by simp [hstr])]
    by_cases hc : s.ended = true ∧
        s.streamingDurationMs ≤ max 0 ((now - s.streamStartTime) * 1000) ∧
        0 < s.streamingDurationMs / 1000
    · rw [if_pos hc]
      simp only [true_iff]
      exact ⟨hc.1, hc.2.1⟩
    · rw [if_neg hc]
      constructor
      · intro habs
        simp at habs
      · intro hrhs
        exact absurd ⟨hrhs.1, hrhs.2, div_pos hdur (by norm_num)⟩ hc
  · intro s now hlt
    unfold tick
    split
    · rfl
    · rw [if_neg]
      intro hc
      exact absurd hc.2.1 (not_le.mpr hlt)
  · intro s ts
    induction ts generalizing s with
    | nil => simp [tickRun]
    | cons t ts ih =>
      rcases hf : (tick s t).2 with _ | _
      · have h1 := tick_not_fired s t hf
        simp only [tickRun, hf, h1]
        simpa using ih s
      · have h2 := tick_fired_stops s t hf
        simp only [tickRun, hf]
        rw [tickRun_idle (tick s t).1 ts h2]
        simp
  · intro dec evs hdec hts hstr
    have hg := pbRun_good dec hdec pbInit evs goodState_pbInit hts
    obtain ⟨hpos, hnil, hcons, _⟩ := hg
    have hne : (pbRun dec pbInit evs).segments ≠ [] := by
      intro habs
      rw [(hnil habs).2.2.2] at hstr
      simp at hstr
    obtain ⟨hst, _, _, hch, hdur⟩ := hcons hne
    have hsum := chain_sum _ _ _ hch
    have := sumDurs_pos _ hne hpos
    rw [hdur, hsum]
    have h1000 : (0:ℚ) < 1000 := by norm_num
    nlinarith

end Playback

namespace Playback

/-- A streaming state with 5000 ms scheduled and the end flag received. -/
def tickStateA : PBState :=
  { pbInit with isStreaming := true, ended := true, streamingDurationMs := 5000 }

/-- A decoder that decodes the single byte string [5] to 2 s of audio. -/
def dec1 : List ℕ → Option ℚ := fun bs => if bs = [5] then some 2 else none

def evs1 : List PBEvent := [PBEvent.chunk [5], PBEvent.result 1]

theorem tickStateA_dur_pos : 0 < tickStateA.streamingDurationMs := by
  norm_num [tickStateA, pbInit]

theorem tickStateA_early : max 0 ((3 - tickStateA.streamStartTime) * 1000) <
    tickStateA.streamingDurationMs := by
  norm_num [tickStateA, pbInit]

theorem dec1_pos : ∀ bs q, dec1 bs = some q → 0 < q := by
  intro bs q h
  unfold dec1 at h
  split at h
  · cases h
    norm_num
  · cases h

theorem evs1_times : ∀ t, PBEvent.result t ∈ evs1 → 0 ≤ t := by
  intro t h
  simp [evs1] at h
  rw [h]
  norm_num

theorem evs1_streaming : (pbRun dec1 pbInit evs1).isStreaming = true := by
  norm_num [evs1, pbRun, pbStep, tryDecodeAndPlay, schedule, pbInit, dec1]

/-- Closed witness for the C3 theorem at a concrete streaming state (5 s
scheduled, end flag set): the completion callback fires at clock time 6 s,
does not fire at 3 s while audio is still playing, fires at most once over a
frame sequence, and a concrete decode run reaches a streaming state with
positive scheduled duration. -/
theorem playback_completion_witness :
    ((tick tickStateA 6).2 = true ↔
      tickStateA.ended = true ∧
        tickStateA.streamingDurationMs ≤ max 0 ((6 - tickStateA.streamStartTime) * 1000)) ∧
    (tick tickStateA 3).2 = false ∧
    (tickRun tickStateA [3, 6, 9]).2 ≤ 1 ∧
    0 < (pbRun dec1 pbInit evs1).streamingDurationMs :=
  ⟨playback_completion_fires_iff.1 tickStateA 6 rfl tickStateA_dur_pos,
   playback_completion_fires_iff.2.1 tickStateA 3 tickStateA_early,
   playback_completion_fires_iff.2.2.1 tickStateA [3, 6, 9],
   playback_completion_fires_iff.2.2.2 dec1 evs1 dec1_pos evs1_times evs1_streaming⟩

end Playback

namespace Playback

/-- Claim C6 (amended): at most one decode is in flight at a time — while a
decode is in flight, chunk arrivals and the stream-end effect never start a
second one, they only append to (or leave) the pending buffer; a failed
decode leaves the pending bytes, including any appended during the decode,
intact for the next attempt; but a successful decode clears the entire
pending buffer, including bytes appended while it was in flight, which are
dropped rather than picked up by a later decode. -/
theorem pending_buffer_decode_invariants :
    (∀ (dec : List ℕ → Option ℚ) (s : PBState) (bs : List ℕ), s.inFlight.isSome = true →
      (pbStep dec s (PBEvent.chunk bs)).inFlight = s.inFlight ∧
      (pbStep dec s (PBEvent.chunk bs)).pending = s.pending ++ bs) ∧
    (∀ (dec : List ℕ → Option ℚ) (s : PBState), s.inFlight.isSome = true →
      (pbStep dec s PBEvent.streamEnd).inFlight = s.inFlight ∧
      (pbStep dec s PBEvent.streamEnd).pending = s.pending) ∧
    (∀ (dec : List ℕ → Option ℚ) (s : PBState) (t : ℚ) snap, s.inFlight = some snap →
      dec snap = none →
      (pbStep dec s (PBEvent.result t)).pending = s.pending ∧
      (pbStep dec s (PBEvent.result t)).inFlight = none) ∧
    (∀ (dec : List ℕ → Option ℚ) (s : PBState) (t : ℚ) snap d, s.inFlight = some snap →
      dec snap = some d →
      (pbStep dec s (PBEvent.result t)).pending = [] ∧
      (pbStep dec s (PBEvent.result t)).inFlight = none) := by
  refine ⟨?_, ?_, ?_, ?_⟩
  · intro dec s bs h
    simp only [pbStep, tryDecodeAndPlay]
    split
    · exact ⟨rfl, rfl⟩
    · simp [h]
  · intro dec s h
    simp only [pbStep, tryDecodeAndPlay]
    split
    · exact ⟨rfl, rfl⟩
    · simp [h]
  · intro dec s t snap hf hd
    simp [pbStep, hf, hd]
  · intro dec s t snap d hf hd
    simp only [pbStep, hf, hd]
    constructor
    · by_cases h0 : ({ s with inFlight := none } : PBState).nextStartTime = 0
      · rw [schedule_eq_anchor _ snap d t h0]
      · rw [schedule_eq_cursor _ snap d t h0]
    · by_cases h0 : ({ s with inFlight := none } : PBState).nextStartTime = 0
      · rw [schedule_eq_anchor _ snap d t h0]
      · rw [schedule_eq_cursor _ snap d t h0]

/-- The decoder of the C6 counterexample: only the byte string [7] decodes
(to 1 s of audio). -/
def dec0 : List ℕ → Option ℚ := fun bs => if bs = [7] then some 1 else none

/-- Chunk [7] arrives and its decode starts; chunk [8] arrives while that
decode is in flight; the decode then succeeds. -/
def evs0 : List PBEvent := [PBEvent.chunk [7], PBEvent.chunk [8], PBEvent.result 1]

/-- Counterexample to claim C6 as stated: after the run, the pending buffer
is empty although the only decode that ever ran consumed just [7] — the
byte 8, appended while that decode was in flight, was removed from the
buffer without ever being consumed by a decode, and no later decode can pick
it up. -/
theorem pending_buffer_counterexample :
    (pbRun dec0 pbInit evs0).pending = [] ∧
    (pbRun dec0 pbInit evs0).consumed = [[7]] ∧
    (∀ c ∈ (pbRun dec0 pbInit evs0).consumed, 8 ∉ c) ∧
    (pbRun dec0 pbInit evs0).inFlight = none := by
  have hrun : pbRun dec0 pbInit evs0 =
      { pending := []
        inFlight := none
        ended := false
        nextStartTime := 1 + 1
        streamStartTime := 1
        streamingDurationMs := (1 + 1 - 1) * 1000
        isStreaming := true
        segments := [(1, 1)]
        consumed := [[7]] } := by
    norm_num [evs0, pbRun, pbStep, tryDecodeAndPlay, schedule, pbInit, dec0]
  rw [hrun]
  refine ⟨rfl, rfl, ?_, rfl⟩
  intro c hc
  simp at hc
  rw [hc]
  decide

end Playback

namespace Playback

/-- A state with the decode of [7] in flight. -/
def busyState : PBState := { pbInit with pending := [7], inFlight := some [7] }

/-- A decoder for which every decode attempt fails. -/
def decNone : List ℕ → Option ℚ := fun _ => none

/-- Closed witness for the amended C6 theorem at concrete states: a chunk
arriving during a decode does not start a second decode; a failed decode
leaves pending intact; a successful decode empties pending. -/
theorem pending_buffer_decode_witness :
    ((pbStep dec0 busyState (PBEvent.chunk [8])).inFlight = busyState.inFlight ∧
      (pbStep dec0 busyState (PBEvent.chunk [8])).pending = busyState.pending ++ [8]) ∧
    ((pbStep decNone busyState (PBEvent.result 1)).pending = busyState.pending ∧
      (pbStep decNone busyState (PBEvent.result 1)).inFlight = none) ∧
    ((pbStep dec0 busyState (PBEvent.result 1)).pending = [] ∧
      (pbStep dec0 busyState (PBEvent.result 1)).inFlight = none) :=
  ⟨pending_buffer_decode_invariants.1 dec0 busyState [8] rfl,
   pending_buffer_decode_invariants.2.2.1 decNone busyState 1 [7] rfl rfl,
   pending_buffer_decode_invariants.2.2.2 dec0 busyState 1 [7] 1 rfl (by simp [dec0])⟩

end Playback

namespace Playback

/-- The byte strings of a list of decodable units. -/
def ubytes (units : List (List ℕ × ℚ)) : List (List ℕ) := units.map Prod.fst

/-- The durations (seconds) of a list of decodable units. -/
def udurs (units : List (List ℕ × ℚ)) : List ℚ := units.map Prod.snd

/-- The full byte stream formed by the units in order. -/
def streamBytes (units : List (List ℕ × ℚ)) : List ℕ := (ubytes units).flatten

/-- Number of bytes taken up by the first k units. -/
def lenSum (units : List (List ℕ × ℚ)) (k : ℕ) : ℕ :=
  (((ubytes units).take k).map List.length).sum

/-- The bytes of units i, …, j-1 concatenated. -/
def catSpan (units : List (List ℕ × ℚ)) (i j : ℕ) : List ℕ :=
  (((ubytes units).drop i).take (j - i)).flatten

/-- The total duration of units i, …, j-1. -/
def durSpan (units : List (List ℕ × ℚ)) (i j : ℕ) : ℚ :=
  (((udurs units).drop i).take (j - i)).sum

/-- The platform decoder decodes every nonempty run of consecutive complete
units to the sum of their durations. -/
def DecOk (dec : List ℕ → Option ℚ) (units : List (List ℕ × ℚ)) : Prop :=
  ∀ i j, i < j → j ≤ units.length → dec (catSpan units i j) = some (durSpan units i j)

/-- The platform decoder rejects every boundary-aligned span that ends
strictly inside a unit (for such a span there are not yet enough bytes for a
complete decodable unit). -/
def DecFail (dec : List ℕ → Option ℚ) (units : List (List ℕ × ℚ)) : Prop :=
  ∀ i j p q, i ≤ j → (ubytes units)[j]? = some (p ++ q) → p ≠ [] → q ≠ [] →
    dec (catSpan units i j ++ p) = none

/-- The event sequence of a sequential run: each batch of chunk bytes is
followed by the completion of the decode attempt it triggered (at clock time
c.2), then the stream ends and the final decode attempt completes at te. -/
def seqEvents (cs : List (List ℕ × ℚ)) (te : ℚ) : List PBEvent :=
  (cs.map fun c => [PBEvent.chunk c.1, PBEvent.result c.2]).flatten ++
    [PBEvent.streamEnd, PBEvent.result te]

theorem pbRun_append (dec : List ℕ → Option ℚ) (s : PBState) (xs ys : List PBEvent) :
    pbRun dec s (xs ++ ys) = pbRun dec (pbRun dec s xs) ys := by
  induction xs generalizing s with
  | nil => rfl
  | cons e es ih =>
    simp only [List.cons_append, pbRun]
    exact ih (pbStep dec s e)

theorem lenSum_zero (units : List (List ℕ × ℚ)) : lenSum units 0 = 0 := rfl

theorem lenSum_add_span (units : List (List ℕ × ℚ)) (i j : ℕ) (h : i ≤ j) :
    lenSum units j = lenSum units i +
      ((((ubytes units).drop i).take (j - i)).map List.length).sum := by
  unfold lenSum
  have hj : j = i + (j - i) := by omega
  rw [hj, List.take_add]
  simp

theorem lenSum_mono (units : List (List ℕ × ℚ)) (i j : ℕ) (h : i ≤ j) :
    lenSum units i ≤ lenSum units j := by
  rw [lenSum_add_span units i j h]
  omega

theorem catSpan_length (units : List (List ℕ × ℚ)) (i j : ℕ) (h : i ≤ j) :
    (catSpan units i j).length = lenSum units j - lenSum units i := by
  unfold catSpan
  rw [List.length_flatten, lenSum_add_span units i j h]
  omega

theorem flatten_drop_lenSum (L : List (List ℕ)) (j : ℕ) :
    L.flatten.drop (((L.take j).map List.length).sum) = (L.drop j).flatten := by
  induction j generalizing L with
  | zero => simp
  | succ j ih =>
    cases L with
    | nil => simp
    | cons x L =>
      simp only [List.take_succ_cons, List.map_cons, List.sum_cons, List.flatten_cons,
        List.drop_succ_cons]
      rw [List.drop_append]
      exact ih L

end Playback

namespace Playback

theorem drop_lenSum_eq_catSpan (units : List (List ℕ × ℚ)) (j : ℕ) (hj : j ≤ units.length) :
    (streamBytes units).drop (lenSum units j) = catSpan units j units.length := by
  unfold streamBytes lenSum catSpan
  rw [flatten_drop_lenSum]
  congr 1
  have hlen : ((ubytes units).drop j).length = units.length - j := by
    simp [ubytes]
  rw [List.take_of_length_le]
  omega

theorem catSpan_split (units : List (List ℕ × ℚ)) (i j k : ℕ) (hij : i ≤ j) (hjk : j ≤ k) :
    catSpan units i j ++ catSpan units j k = catSpan units i k := by
  unfold catSpan
  have h1 : k - i = (j - i) + (k - j) := by omega
  have h2 : (ubytes units).drop j = ((ubytes units).drop i).drop (j - i) := by
    rw [List.drop_drop]
    congr 1
    omega
  rw [h1, List.take_add, h2]
  simp

theorem durSpan_split (units : List (List ℕ × ℚ)) (i j k : ℕ) (hij : i ≤ j) (hjk : j ≤ k) :
    durSpan units i j + durSpan units j k = durSpan units i k := by
  unfold durSpan
  have h1 : k - i = (j - i) + (k - j) := by omega
  have h2 : (udurs units).drop j = ((udurs units).drop i).drop (j - i) := by
    rw [List.drop_drop]
    congr 1
    omega
  rw [h1, List.take_add, h2]
  simp

theorem streamBytes_length (units : List (List ℕ × ℚ)) :
    (streamBytes units).length = lenSum units units.length := by
  unfold streamBytes lenSum
  rw [List.length_flatten]
  congr 1
  rw [List.take_of_length_le]
  simp [ubytes]

theorem lenSum_le_total (units : List (List ℕ × ℚ)) (k : ℕ) :
    lenSum units k ≤ (streamBytes units).length := by
  rw [streamBytes_length]
  by_cases h : k ≤ units.length
  · exact lenSum_mono units k units.length h
  · unfold lenSum
    rw [List.take_of_length_le (by simp [ubytes]; omega)]
    rw [List.take_of_length_le (by simp [ubytes])]

theorem lenSum_strict (units : List (List ℕ × ℚ)) (k : ℕ) (hk : k < units.length)
    (hne : ∀ u ∈ units, u.1 ≠ []) :
    lenSum units k < lenSum units (k + 1) := by
  unfold lenSum
  have hk2 : k < (ubytes units).length := by simpa [ubytes] using hk
  have hsome : (ubytes units)[k]? = some ((ubytes units).get ⟨k, hk2⟩) := by
    rw [List.getElem?_eq_getElem hk2]
    rfl
  have hpos : 0 < ((ubytes units).get ⟨k, hk2⟩).length := by
    rcases hmm : (ubytes units).get ⟨k, hk2⟩ with _ | ⟨a, l⟩
    · exfalso
      have hmem := List.get_mem (ubytes units) k hk2
      rw [hmm] at hmem
      unfold ubytes at hmem
      rcases List.mem_map.mp hmem with ⟨u, hu, hequ⟩
      exact (hne u hu) hequ
    · simp
  rw [List.take_succ, hsome]
  simp only [Option.toList_some, List.map_append, List.sum_append, List.map_cons,
    List.map_nil, List.sum_cons, List.sum_nil]
  omega

end Playback

namespace Playback

theorem lenSum_succ_get (units : List (List ℕ × ℚ)) (j : ℕ) (hj : j < (ubytes units).length) :
    lenSum units (j + 1) = lenSum units j + ((ubytes units).get ⟨j, hj⟩).length := by
  rw [lenSum_add_span units j (j + 1) (by omega)]
  have h1 : j + 1 - j = 1 := by omega
  have hslice : (((ubytes units).drop j).take (j + 1 - j)).map List.length =
      [((ubytes units).get ⟨j, hj⟩).length] := by
    rw [h1, List.drop_eq_getElem_cons hj]
    simp only [List.get_eq_getElem, List.take_succ_cons, List.take_zero, List.map_cons,
      List.map_nil]
  rw [hslice]
  simp

theorem take_drop_self (l : List ℕ) (a : ℕ) : (l.take a).drop a = [] := by
  rw [List.drop_take]
  simp

theorem pending_extend (l : List ℕ) (p q r : ℕ) (hpq : p ≤ q) (hq : q ≤ l.length) :
    (l.take q).drop p ++ (l.drop q).take r = (l.take (q + r)).drop p := by
  rw [List.take_add, List.drop_append_of_le_length]
  rw [List.length_take]
  omega

theorem pending_aligned (units : List (List ℕ × ℚ)) (m j : ℕ)
    (hmj : m ≤ j) (hjN : j ≤ units.length) :
    ((streamBytes units).take (lenSum units j)).drop (lenSum units m) = catSpan units m j := by
  rw [List.drop_take, drop_lenSum_eq_catSpan units m (le_trans hmj hjN)]
  rw [← catSpan_split units m j units.length hmj hjN]
  have hlen : lenSum units j - lenSum units m = (catSpan units m j).length := by
    rw [catSpan_length units m j hmj]
  rw [hlen, List.take_left]

theorem catSpan_cons (units : List (List ℕ × ℚ)) (j : ℕ) (hj : j < (ubytes units).length) :
    catSpan units j units.length =
      (ubytes units).get ⟨j, hj⟩ ++ catSpan units (j + 1) units.length := by
  unfold catSpan
  have hdrop : (ubytes units).drop j = (ubytes units)[j] :: (ubytes units).drop (j + 1) :=
    List.drop_eq_getElem_cons hj
  have hNj : units.length - j = (units.length - (j + 1)) + 1 := by
    have : (ubytes units).length = units.length := by simp [ubytes]
    omega
  rw [hdrop, hNj, List.take_succ_cons, List.flatten_cons]
  rfl

theorem pending_mid (units : List (List ℕ × ℚ)) (m j q : ℕ)
    (hmj : m ≤ j) (hjN : j < units.length)
    (h1 : lenSum units j ≤ q) (h2 : q ≤ lenSum units (j + 1)) :
    ∃ hj : j < (ubytes units).length,
      ((streamBytes units).take q).drop (lenSum units m) =
        catSpan units m j ++ ((ubytes units).get ⟨j, hj⟩).take (q - lenSum units j) := by
  have hj : j < (ubytes units).length := by simpa [ubytes] using hjN
  refine ⟨hj, ?_⟩
  rw [List.drop_take, drop_lenSum_eq_catSpan units m (le_of_lt (lt_of_le_of_lt hmj hjN))]
  rw [← catSpan_split units m j units.length hmj (le_of_lt hjN)]
  have hmono := lenSum_mono units m j hmj
  have hq : q - lenSum units m = (catSpan units m j).length + (q - lenSum units j) := by
    rw [catSpan_length units m j hmj]
    omega
  rw [hq, List.take_append]
  congr 1
  rw [catSpan_cons units j hj]
  apply List.take_append_of_le_length
  have := lenSum_succ_get units j hj
  omega

theorem position_cases (units : List (List ℕ × ℚ)) (m q : ℕ)
    (hm : m ≤ units.length) (hmq : lenSum units m ≤ q)
    (hq : q ≤ (streamBytes units).length) :
    (∃ j, m ≤ j ∧ j ≤ units.length ∧ q = lenSum units j) ∨
    (∃ j, m ≤ j ∧ j < units.length ∧ lenSum units j < q ∧ q < lenSum units (j + 1)) := by
  obtain ⟨j, hjdef⟩ :
      ∃ j, Nat.findGreatest (fun k => lenSum units k ≤ q) units.length = j := ⟨_, rfl⟩
  obtain ⟨hjle, hPj0, hgr⟩ := Nat.findGreatest_eq_iff.mp hjdef
  have hmj : m ≤ j := by
    by_contra hlt
    exact hgr (by omega) hm hmq
  have hPj : lenSum units j ≤ q := by
    by_cases hj0 : j = 0
    · rw [hj0, lenSum_zero]
      omega
    · exact hPj0 hj0
  by_cases heq : q = lenSum units j
  · exact Or.inl ⟨j, hmj, hjle, heq⟩
  · have hlt : lenSum units j < q := lt_of_le_of_ne hPj (fun h => heq h.symm)
    have hjN : j < units.length := by
      rcases lt_or_eq_of_le hjle with h | h
      · exact h
      · exfalso
        rw [streamBytes_length] at hq
        rw [h] at hlt
        omega
    have hnot : ¬ lenSum units (j + 1) ≤ q := hgr (by omega) (by omega)
    exact Or.inr ⟨j, hmj, hjN, hlt, by omega⟩

end Playback

namespace Playback

theorem pbStep_chunk_empty (dec : List ℕ → Option ℚ) (s : PBState) (bs : List ℕ)
    (h : s.pending ++ bs = []) :
    pbStep dec s (PBEvent.chunk bs) = { s with pending := s.pending ++ bs } := by
  simp only [pbStep, tryDecodeAndPlay]
  rw [if_pos h]

theorem pbStep_chunk_start (dec : List ℕ → Option ℚ) (s : PBState) (bs : List ℕ)
    (h : s.pending ++ bs ≠ []) (hif : s.inFlight = none) :
    pbStep dec s (PBEvent.chunk bs) =
      { s with pending := s.pending ++ bs, inFlight := some (s.pending ++ bs) } := by
  simp only [pbStep, tryDecodeAndPlay]
  rw [if_neg h, if_neg (by simp [hif])]

theorem pbStep_streamEnd_empty (dec : List ℕ → Option ℚ) (s : PBState)
    (h : s.pending = []) :
    pbStep dec s PBEvent.streamEnd = { s with ended := true } := by
  simp only [pbStep, tryDecodeAndPlay]
  rw [if_pos h]

theorem pbStep_streamEnd_start (dec : List ℕ → Option ℚ) (s : PBState)
    (h : s.pending ≠ []) (hif : s.inFlight = none) :
    pbStep dec s PBEvent.streamEnd =
      { s with ended := true, inFlight := some s.pending } := by
  simp only [pbStep, tryDecodeAndPlay]
  rw [if_neg h, if_neg (by simp [hif])]

theorem pbStep_result_idle (dec : List ℕ → Option ℚ) (s : PBState) (t : ℚ)
    (h : s.inFlight = none) : pbStep dec s (PBEvent.result t) = s := by
  simp only [pbStep, h]

theorem pbStep_result_fail (dec : List ℕ → Option ℚ) (s : PBState) (t : ℚ) (snap : List ℕ)
    (h : s.inFlight = some snap) (hd : dec snap = none) :
    pbStep dec s (PBEvent.result t) = { s with inFlight := none } := by
  simp only [pbStep, h, hd]

theorem pbStep_result_ok (dec : List ℕ → Option ℚ) (s : PBState) (t d : ℚ) (snap : List ℕ)
    (h : s.inFlight = some snap) (hd : dec snap = some d) :
    pbStep dec s (PBEvent.result t) = schedule { s with inFlight := none } snap d t := by
  simp only [pbStep, h, hd]

theorem schedule_basic (s : PBState) (snap : List ℕ) (d t : ℚ) :
    (schedule s snap d t).pending = [] ∧
    (schedule s snap d t).segments.length = s.segments.length + 1 ∧
    sumDurs (schedule s snap d t).segments = sumDurs s.segments + d ∧
    (schedule s snap d t).segments ≠ [] ∧
    (schedule s snap d t).inFlight = s.inFlight ∧
    (schedule s snap d t).ended = s.ended := by
  by_cases h0 : s.nextStartTime = 0
  · rw [schedule_eq_anchor s snap d t h0]
    refine ⟨rfl, by simp, by simp [sumDurs], by simp, rfl, rfl⟩
  · rw [schedule_eq_cursor s snap d t h0]
    refine ⟨rfl, by simp, by simp [sumDurs], by simp, rfl, rfl⟩

end Playback

namespace Playback

theorem seqEvents_cons (c : List ℕ × ℚ) (cs : List (List ℕ × ℚ)) (te : ℚ) :
    seqEvents (c :: cs) te =
      PBEvent.chunk c.1 :: PBEvent.result c.2 :: seqEvents cs te := by
  simp [seqEvents]

theorem catSpan_self (units : List (List ℕ × ℚ)) (j : ℕ) : catSpan units j j = [] := by
  unfold catSpan
  simp

theorem seq_process (dec : List ℕ → Option ℚ) (units : List (List ℕ × ℚ))
    (hok : DecOk dec units) (hfail : DecFail dec units)
    (hbne : ∀ u ∈ units, u.1 ≠ []) (te : ℚ) :
    ∀ (cs : List (List ℕ × ℚ)) (s : PBState) (m q : ℕ),
      (cs.map Prod.fst).flatten = (streamBytes units).drop q →
      m ≤ units.length → lenSum units m ≤ q → q ≤ (streamBytes units).length →
      s.inFlight = none →
      s.pending = ((streamBytes units).take q).drop (lenSum units m) →
      sumDurs s.segments = durSpan units 0 m →
      s.segments.length ≤ m →
      (m ≠ 0 → s.segments ≠ []) →
      sumDurs (pbRun dec s (seqEvents cs te)).segments = durSpan units 0 units.length ∧
      (pbRun dec s (seqEvents cs te)).segments.length ≤ units.length ∧
      (units ≠ [] → (pbRun dec s (seqEvents cs te)).segments ≠ []) ∧
      (pbRun dec s (seqEvents cs te)).pending = [] := by
  intro cs
  induction cs with
  | nil =>
    intro s m q hcs hm hmq hq hif hpend hsum hcnt hne0
    have hqt : q = (streamBytes units).length := by
      have := List.drop_eq_nil_iff.mp hcs.symm
      omega
    have hpend2 : s.pending = catSpan units m units.length := by
      rw [hpend, hqt, List.take_length, drop_lenSum_eq_catSpan units m hm]
    have hrun : pbRun dec s (seqEvents [] te) =
        pbStep dec (pbStep dec s PBEvent.streamEnd) (PBEvent.result te) := by
      simp [seqEvents, pbRun]
    by_cases hmN : m = units.length
    · have hpe : s.pending = [] := by
        rw [hpend2, hmN, catSpan_self]
      have h1 : pbStep dec s PBEvent.streamEnd = { s with ended := true } :=
        pbStep_streamEnd_empty dec s hpe
      have h2 : pbStep dec ({ s with ended := true } : PBState) (PBEvent.result te) =
          { s with ended := true } :=
        pbStep_result_idle dec _ te hif
      rw [hrun, h1, h2]
      subst hmN
      refine ⟨hsum, hcnt, ?_, hpe⟩
      intro hU
      exact hne0 (fun h0 => hU (List.length_eq_zero.mp h0))
    · have hmlt : m < units.length := lt_of_le_of_ne hm hmN
      have hplen : 0 < s.pending.length := by
        rw [hpend2, catSpan_length units m units.length (le_of_lt hmlt)]
        have h1 := lenSum_strict units m hmlt hbne
        have h2 := lenSum_mono units (m + 1) units.length (by omega)
        omega
      have hpe : s.pending ≠ [] := by
        intro h
        rw [h] at hplen
        simp at hplen
      have h1 := pbStep_streamEnd_start dec s hpe hif
      have hdec : dec s.pending = some (durSpan units m units.length) := by
        rw [hpend2]
        exact hok m units.length hmlt le_rfl
      have h2 : pbStep dec ({ s with ended := true, inFlight := some s.pending } : PBState)
            (PBEvent.result te) =
          schedule { s with ended := true, inFlight := none } s.pending
            (durSpan units m units.length) te :=
        pbStep_result_ok dec _ te _ s.pending rfl hdec
      rw [hrun, h1, h2]
      obtain ⟨hb1, hb2, hb3, hb4, _, _⟩ :=
        schedule_basic ({ s with ended := true, inFlight := none } : PBState) s.pending
          (durSpan units m units.length) te
      refine ⟨?_, ?_, fun _ => hb4, hb1⟩
      · rw [hb3]
        have hsum2 : sumDurs ({ s with ended := true, inFlight := none } : PBState).segments =
            durSpan units 0 m := hsum
        rw [hsum2]
        exact durSpan_split units 0 m units.length (by omega) (le_of_lt hmlt)
      · rw [hb2]
        have hcnt2 : ({ s with ended := true, inFlight := none } : PBState).segments.length ≤ m :=
          hcnt
        omega
  | cons c cs ih =>
    intro s m q hcs hm hmq hq hif hpend hsum hcnt hne0
    have hcs1 : c.1 ++ (cs.map Prod.fst).flatten = (streamBytes units).drop q := by
      simpa using hcs
    have hstep : pbRun dec s (seqEvents (c :: cs) te) =
        pbRun dec (pbStep dec (pbStep dec s (PBEvent.chunk c.1)) (PBEvent.result c.2))
          (seqEvents cs te) := by
      rw [seqEvents_cons]
      rfl
    have hchunk_eq : ((streamBytes units).drop q).take c.1.length = c.1 := by
      rw [← hcs1, List.take_left]
    have hrest : ((streamBytes units).drop q).drop c.1.length = (cs.map Prod.fst).flatten := by
      rw [← hcs1, List.drop_left]
    have hcs2 : (cs.map Prod.fst).flatten = (streamBytes units).drop (q + c.1.length) := by
      rw [← hrest, List.drop_drop]
    have hq2 : q + c.1.length ≤ (streamBytes units).length := by
      have h2 : (c.1 ++ (cs.map Prod.fst).flatten).length =
          ((streamBytes units).drop q).length := by
        rw [hcs1]
      simp at h2
      omega
    have hmq2 : lenSum units m ≤ q + c.1.length := by omega
    have hP2 : s.pending ++ c.1 =
        ((streamBytes units).take (q + c.1.length)).drop (lenSum units m) := by
      rw [hpend]
      have hpx := pending_extend (streamBytes units) (lenSum units m) q c.1.length hmq hq
      rw [hchunk_eq] at hpx
      exact hpx
    by_cases hPe : s.pending ++ c.1 = []
    · have h1 := pbStep_chunk_empty dec s c.1 hPe
      have h2 : pbStep dec ({ s with pending := s.pending ++ c.1 } : PBState)
            (PBEvent.result c.2) = { s with pending := s.pending ++ c.1 } :=
        pbStep_result_idle dec _ c.2 hif
      rw [hstep, h1, h2]
      exact ih { s with pending := s.pending ++ c.1 } m (q + c.1.length) hcs2 hm hmq2 hq2
        hif hP2 hsum hcnt hne0
    · have h1 := pbStep_chunk_start dec s c.1 hPe hif
      have hPlen : (s.pending ++ c.1).length = (q + c.1.length) - lenSum units m := by
        rw [hP2, List.length_drop, List.length_take, min_eq_left hq2]
      have hlenlt : lenSum units m < q + c.1.length := by
        rcases Nat.lt_or_ge (lenSum units m) (q + c.1.length) with h | h
        · exact h
        · exfalso
          apply hPe
          apply List.length_eq_zero.mp
          omega
      rcases position_cases units m (q + c.1.length) hm hmq2 hq2 with
        ⟨j, hmj, hjN, hqal⟩ | ⟨j, hmj, hjN, hlt1, hlt2⟩
      · -- arrived bytes end on a unit boundary: this decode succeeds
        have hmltj : m < j := by
          rcases Nat.lt_or_ge m j with h | h
          · exact h
          · exfalso
            have := lenSum_mono units j m h
            omega
        have hPspan : s.pending ++ c.1 = catSpan units m j := by
          rw [hP2, hqal]
          exact pending_aligned units m j (le_of_lt hmltj) hjN
        have hdecP : dec (s.pending ++ c.1) = some (durSpan units m j) := by
          rw [hPspan]
          exact hok m j hmltj hjN
        have h2 : pbStep dec
              ({ s with pending := s.pending ++ c.1, inFlight := some (s.pending ++ c.1) } :
                PBState) (PBEvent.result c.2) =
            schedule { s with pending := s.pending ++ c.1, inFlight := none }
              (s.pending ++ c.1) (durSpan units m j) c.2 :=
          pbStep_result_ok dec _ c.2 _ _ rfl hdecP
        rw [hstep, h1, h2]
        obtain ⟨hb1, hb2, hb3, hb4, hb5, _⟩ :=
          schedule_basic ({ s with pending := s.pending ++ c.1, inFlight := none } : PBState)
            (s.pending ++ c.1) (durSpan units m j) c.2
        refine ih _ j (q + c.1.length) hcs2 hjN (by omega) hq2 ?_ ?_ ?_ ?_ ?_
        · rw [hb5]
        · rw [hb1, hqal, take_drop_self]
        · rw [hb3]
          have hs0 : sumDurs
              ({ s with pending := s.pending ++ c.1, inFlight := none } : PBState).segments =
              durSpan units 0 m := hsum
          rw [hs0]
          exact durSpan_split units 0 m j (by omega) (le_of_lt hmltj)
        · rw [hb2]
          have hc0 : ({ s with pending := s.pending ++ c.1, inFlight := none } :
              PBState).segments.length ≤ m := hcnt
          omega
        · intro _
          exact hb4
      · -- arrived bytes end inside unit j: this decode fails, pending is kept
        obtain ⟨hj, hPmid0⟩ := pending_mid units m j (q + c.1.length) hmj hjN
          (le_of_lt hlt1) (le_of_lt hlt2)
        have hPmid : s.pending ++ c.1 = catSpan units m j ++
            ((ubytes units).get ⟨j, hj⟩).take ((q + c.1.length) - lenSum units j) := by
          rw [hP2]
          exact hPmid0
        have hulen : lenSum units (j + 1) =
            lenSum units j + ((ubytes units).get ⟨j, hj⟩).length := lenSum_succ_get units j hj
        have hrlt : (q + c.1.length) - lenSum units j <
            ((ubytes units).get ⟨j, hj⟩).length := by omega
        have hrpos : 0 < (q + c.1.length) - lenSum units j := by omega
        have hsome : (ubytes units)[j]? = some
            (((ubytes units).get ⟨j, hj⟩).take ((q + c.1.length) - lenSum units j) ++
              ((ubytes units).get ⟨j, hj⟩).drop ((q + c.1.length) - lenSum units j)) := by
          rw [List.take_append_drop, List.getElem?_eq_getElem hj]
          rfl
        have hdecP : dec (s.pending ++ c.1) = none := by
          rw [hPmid]
          refine hfail m j _ _ hmj hsome ?_ ?_
          · intro habs
            have hlen := congrArg List.length habs
            rw [List.length_take, min_eq_left (le_of_lt hrlt)] at hlen
            simp only [List.length_nil] at hlen
            omega
          · intro habs
            have hlen := congrArg List.length habs
            rw [List.length_drop] at hlen
            simp only [List.length_nil] at hlen
            omega
        have h2 : pbStep dec
              ({ s with pending := s.pending ++ c.1, inFlight := some (s.pending ++ c.1) } :
                PBState) (PBEvent.result c.2) =
            { s with pending := s.pending ++ c.1, inFlight := none } :=
          pbStep_result_fail dec _ c.2 _ rfl hdecP
        rw [hstep, h1, h2]
        exact ih { s with pending := s.pending ++ c.1, inFlight := none } m
          (q + c.1.length) hcs2 hm hmq2 hq2 rfl hP2 hsum hcnt hne0


/-- C2 (amended): for every chunking of the byte stream of the N decodable
units, delivered through the hook as chunk effects each followed by the
completion of the decode attempt it may have started, then the stream end,
the scheduler drains all pending bytes and produces a run of positive
segments that is contiguous (each starts exactly where the previous ends,
anchored at the first decode's clock time) with durations summing to the
total decoded duration, mirrored by streamingDurationMs; the NUMBER of
segments, however, is only between 1 and N: it depends on the chunking and
is not always N as claimed (see the counterexample below). -/
theorem playback_segments_contiguous_sum
    (dec : List ℕ → Option ℚ) (units cs : List (List ℕ × ℚ)) (te : ℚ)
    (hok : DecOk dec units) (hfail : DecFail dec units)
    (hbne : ∀ u ∈ units, u.1 ≠ [])
    (hdpos : ∀ bs q, dec bs = some q → 0 < q)
    (hcat : (cs.map Prod.fst).flatten = streamBytes units)
    (htpos : ∀ c ∈ cs, 0 ≤ c.2) (hte : 0 ≤ te) (hune : units ≠ []) :
    (pbRun dec pbInit (seqEvents cs te)).pending = [] ∧
    sumDurs (pbRun dec pbInit (seqEvents cs te)).segments =
      durSpan units 0 units.length ∧
    (∀ p ∈ (pbRun dec pbInit (seqEvents cs te)).segments, 0 < p.2) ∧
    chain (pbRun dec pbInit (seqEvents cs te)).streamStartTime
      (pbRun dec pbInit (seqEvents cs te)).segments
      (pbRun dec pbInit (seqEvents cs te)).nextStartTime ∧
    (pbRun dec pbInit (seqEvents cs te)).streamingDurationMs =
      durSpan units 0 units.length * 1000 ∧
    1 ≤ (pbRun dec pbInit (seqEvents cs te)).segments.length ∧
    (pbRun dec pbInit (seqEvents cs te)).segments.length ≤ units.length := by
  have hts : ∀ t, PBEvent.result t ∈ seqEvents cs te → 0 ≤ t := by
    intro t htm
    unfold seqEvents at htm
    rw [List.mem_append] at htm
    rcases htm with h | h
    · rw [List.mem_flatten] at h
      obtain ⟨l, hl, htl⟩ := h
      rw [List.mem_map] at hl
      obtain ⟨c, hc, hcl⟩ := hl
      rw [← hcl] at htl
      simp at htl
      rw [htl]
      exact htpos c hc
    · simp at h
      rw [h]
      exact hte
  obtain ⟨hS, hC, hN, hP⟩ := seq_process dec units hok hfail hbne te cs pbInit 0 0
    (by simpa using hcat) (Nat.zero_le _) (le_refl 0) (Nat.zero_le _) rfl
    (by simp [pbInit, lenSum]) (by simp [pbInit, sumDurs, durSpan])
    (by simp [pbInit]) (fun h => absurd rfl h)
  have hgood := pbRun_good dec hdpos pbInit (seqEvents cs te) goodState_pbInit hts
  obtain ⟨hpos, -, hfull, -⟩ := hgood
  have hne : (pbRun dec pbInit (seqEvents cs te)).segments ≠ [] := hN hune
  obtain ⟨-, -, -, hchain, hdur⟩ := hfull hne
  refine ⟨hP, hS, hpos, hchain, ?_, ?_, hC⟩
  · have hcs2 := chain_sum _ _ _ hchain
    rw [hdur, hcs2, hS]
    ring
  · exact List.length_pos.mpr hne

/-- The two single-byte units of the counterexample: each decodes alone to
duration 1, their concatenation decodes to duration 2. -/
def units₂ : List (List ℕ × ℚ) := [([1], 1), ([2], 1)]

/-- A platform decoder consistent with units₂: any nonempty run of complete
units decodes to the sum of their durations, anything else fails. -/
def dec₂ : List ℕ → Option ℚ
  | [1] => some 1
  | [2] => some 1
  | [1, 2] => some 2
  | _ => none

theorem dec₂_ok : DecOk dec₂ units₂ := by
  intro i j hij hj
  simp only [units₂, List.length_cons, List.length_nil] at hj
  interval_cases j
  · omega
  · interval_cases i
    · norm_num [catSpan, durSpan, units₂, ubytes, udurs, dec₂]
  · interval_cases i
    · norm_num [catSpan, durSpan, units₂, ubytes, udurs, dec₂]
    · norm_num [catSpan, durSpan, units₂, ubytes, udurs, dec₂]

theorem dec₂_fail : DecFail dec₂ units₂ := by
  intro i j p q hij hj hp hq
  exfalso
  have hlp : 0 < p.length := List.length_pos.mpr hp
  have hlq : 0 < q.length := List.length_pos.mpr hq
  rcases Nat.lt_or_ge j 2 with h2 | h2
  · interval_cases j
    · simp only [units₂, ubytes, List.map_cons, List.map_nil, List.getElem?_cons_zero,
        Option.some.injEq] at hj
      have hl := congrArg List.length hj
      simp at hl
      omega
    · simp only [units₂, ubytes, List.map_cons, List.map_nil, List.getElem?_cons_succ,
        List.getElem?_cons_zero, Option.some.injEq] at hj
      have hl := congrArg List.length hj
      simp at hl
      omega
  · rw [List.getElem?_eq_none (by simpa [units₂, ubytes] using h2)] at hj
    exact Option.noConfusion hj

theorem dec₂_pos : ∀ bs q, dec₂ bs = some q → 0 < q := by
  intro bs q h
  unfold dec₂ at h
  split at h
  · rw [Option.some.injEq] at h
    rw [← h]
    norm_num
  · rw [Option.some.injEq] at h
    rw [← h]
    norm_num
  · rw [Option.some.injEq] at h
    rw [← h]
    norm_num
  · exact Option.noConfusion h

/-- C2 counterexample to the original claim: the stream of units₂ (two
decodable units) delivered as a single chunk is decoded as one buffer and
scheduled as a single segment, so the number of scheduled segments is 1,
not the number of decodable units 2: the segment count is not independent
of the chunking. -/
theorem playback_segment_count_counterexample :
    (([([1, 2], (1 : ℚ))].map Prod.fst).flatten = streamBytes units₂) ∧
    units₂.length = 2 ∧
    (pbRun dec₂ pbInit (seqEvents [([1, 2], (1 : ℚ))] 2)).segments.length = 1 := by
  refine ⟨by decide, by decide, ?_⟩
  have hev : seqEvents [([1, 2], (1 : ℚ))] 2 =
      [PBEvent.chunk [1, 2], PBEvent.result 1, PBEvent.streamEnd, PBEvent.result 2] := by
    simp [seqEvents]
  obtain ⟨hb1, hb2, hb3, hb4, hb5, hb6⟩ := schedule_basic
    ({ pbInit with pending := [1, 2], inFlight := none } : PBState) [1, 2] 2 1
  set s2 := schedule ({ pbInit with pending := [1, 2], inFlight := none } : PBState)
    [1, 2] 2 1 with hs2
  have e1 : pbStep dec₂ pbInit (PBEvent.chunk [1, 2]) =
      { pbInit with pending := [1, 2], inFlight := some [1, 2] } := by
    have h := pbStep_chunk_start dec₂ pbInit [1, 2] (by simp [pbInit]) rfl
    simpa [pbInit] using h
  have e2 : pbStep dec₂ ({ pbInit with pending := [1, 2], inFlight := some [1, 2] } :
        PBState) (PBEvent.result 1) = s2 := by
    rw [hs2]
    exact pbStep_result_ok dec₂ _ 1 2 [1, 2] rfl rfl
  have e3 : pbStep dec₂ s2 PBEvent.streamEnd = { s2 with ended := true } :=
    pbStep_streamEnd_empty dec₂ s2 hb1
  have e4 : pbStep dec₂ ({ s2 with ended := true } : PBState) (PBEvent.result 2) =
      { s2 with ended := true } :=
    pbStep_result_idle dec₂ _ 2 (show s2.inFlight = none from by rw [hb5])
  rw [hev]
  show (pbRun dec₂ (pbStep dec₂ pbInit (PBEvent.chunk [1, 2]))
    [PBEvent.result 1, PBEvent.streamEnd, PBEvent.result 2]).segments.length = 1
  rw [e1]
  show (pbRun dec₂
    (pbStep dec₂ ({ pbInit with pending := [1, 2], inFlight := some [1, 2] } : PBState)
      (PBEvent.result 1))
    [PBEvent.streamEnd, PBEvent.result 2]).segments.length = 1
  rw [e2]
  show (pbRun dec₂ (pbStep dec₂ s2 PBEvent.streamEnd)
    [PBEvent.result 2]).segments.length = 1
  rw [e3]
  show (pbRun dec₂ (pbStep dec₂ ({ s2 with ended := true } : PBState)
    (PBEvent.result 2)) []).segments.length = 1
  rw [e4]
  show s2.segments.length = 1
  rw [hb2]
  rfl

/-- Concrete instance of the amended C2 theorem: delivering units₂ one unit
per chunk drains all bytes and schedules segments of total duration 2. -/
theorem playback_segments_witness :
    DecOk dec₂ units₂ ∧ DecFail dec₂ units₂ ∧
    ((pbRun dec₂ pbInit (seqEvents [([1], (1 : ℚ)), ([2], 2)] 3)).pending = [] ∧
      sumDurs (pbRun dec₂ pbInit (seqEvents [([1], (1 : ℚ)), ([2], 2)] 3)).segments =
        durSpan units₂ 0 units₂.length) :=
  have h := playback_segments_contiguous_sum dec₂ units₂ [([1], 1), ([2], 2)] 3
    dec₂_ok dec₂_fail (by decide) dec₂_pos (by decide)
    (by intro c hc; fin_cases hc <;> norm_num) (by norm_num) (by simp [units₂])
  ⟨dec₂_ok, dec₂_fail, h.1, h.2.1⟩

end Playback

namespace Agent

/-- Messages sent to the client over the data channel during one turn:
audio chunks (sendAudioChunk), viseme marks (sendViseme) and the end-of-turn
marker (sendEnd). -/
inductive Msg
  | audio (chunk : List ℕ)
  | viseme (time : ℚ) (value : String)
  | endMark
deriving DecidableEq

/-- Outcome of the streamAudio call of streamTTS: the nonzero-length buffers
it handed to sendAudioChunk before returning, and whether it ended in its
catch branch (a failure aborts the chunk loop but is swallowed, so the call
settles either way). -/
structure AudioOutcome where
  sent : List (List ℕ)
  fails : Bool

/-- One parsed speech-mark line of the viseme synthesis body. -/
structure SpeechMark where
  isViseme : Bool
  value : Option String
  time : ℚ

/-- Outcome of the streamVisemes call of streamTTS: the parsed marks of the
fully accumulated body, or a failure (the body is accumulated before any
sendViseme call, so a failed call settles having sent no visemes). -/
structure VisemeOutcome where
  marks : List SpeechMark
  fails : Bool

def audioMsgs (a : AudioOutcome) : List Msg := a.sent.map Msg.audio

def visemeMsgs (v : VisemeOutcome) : List Msg :=
  if v.fails then []
  else (v.marks.filter fun m => m.isViseme && m.value.isSome).map fun m =>
    Msg.viseme m.time (m.value.getD "")

/-- Interleaving of the two concurrently running synthesis calls: the
schedule picks, step by step, which settled call's next message goes out. -/
def merge : List Bool → List Msg → List Msg → List Msg
  | [], xs, ys => xs ++ ys
  | true :: sc, x :: xs, ys => x :: merge sc xs ys
  | true :: sc, [], ys => merge sc [] ys
  | false :: sc, xs, y :: ys => y :: merge sc xs ys
  | false :: sc, xs, [] => merge sc xs []

/-- streamTTS on a response text: Promise.all of streamAudio and
streamVisemes (their messages interleaved by the scheduler), then a single
sendEnd once both have settled. -/
def streamTTS (text : String) (audio : String → AudioOutcome)
    (vis : String → VisemeOutcome) (sched : List Bool) : List Msg :=
  merge sched (audioMsgs (audio text)) (visemeMsgs (vis text)) ++ [Msg.endMark]

theorem merge_mem (x : Msg) : ∀ (sc : List Bool) (xs ys : List Msg),
    x ∈ merge sc xs ys → x ∈ xs ∨ x ∈ ys := by
  intro sc
  induction sc with
  | nil =>
    intro xs ys h
    simp only [merge] at h
    exact List.mem_append.mp h
  | cons b sc ih =>
    intro xs ys h
    cases b
    · cases ys with
      | nil =>
        simp only [merge] at h
        exact ih xs [] h
      | cons y ys =>
        simp only [merge] at h
        rcases List.mem_cons.mp h with h1 | h1
        · exact Or.inr (by rw [h1]; exact List.mem_cons_self y ys)
        · rcases ih xs ys h1 with h2 | h2
          · exact Or.inl h2
          · exact Or.inr (List.mem_cons_of_mem y h2)
    · cases xs with
      | nil =>
        simp only [merge] at h
        exact ih [] ys h
      | cons z xs =>
        simp only [merge] at h
        rcases List.mem_cons.mp h with h1 | h1
        · exact Or.inl (by rw [h1]; exact List.mem_cons_self z xs)
        · rcases ih xs ys h1 with h2 | h2
          · exact Or.inl (List.mem_cons_of_mem z h2)
          · exact Or.inr h2

/-- C4: for every turn text, every pair of settled synthesis outcomes
(each completing or failing) and every interleaving of their messages,
streamTTS sends exactly one end-of-turn marker, it is always sent, and it
is the last message: no marker goes out before both synthesis calls have
settled, and a failure of either or both calls does not prevent it. -/
theorem tts_exactly_one_end_marker (text : String) (audio : String → AudioOutcome)
    (vis : String → VisemeOutcome) (sched : List Bool) :
    (streamTTS text audio vis sched).count Msg.endMark = 1 ∧
    ∃ ms, streamTTS text audio vis sched = ms ++ [Msg.endMark] ∧
      Msg.endMark ∉ ms := by
  have hnot : Msg.endMark ∉ merge sched (audioMsgs (audio text)) (visemeMsgs (vis text)) := by
    intro h
    rcases merge_mem _ _ _ _ h with h1 | h1
    · unfold audioMsgs at h1
      rw [List.mem_map] at h1
      obtain ⟨c, -, hc⟩ := h1
      exact Msg.noConfusion hc
    · unfold visemeMsgs at h1
      by_cases hf : (vis text).fails
      · rw [if_pos hf] at h1
        exact List.not_mem_nil _ h1
      · rw [if_neg hf] at h1
        rw [List.mem_map] at h1
        obtain ⟨m, -, hm⟩ := h1
        exact Msg.noConfusion hm
  refine ⟨?_, merge sched (audioMsgs (audio text)) (visemeMsgs (vis text)), rfl, hnot⟩
  show (merge sched (audioMsgs (audio text)) (visemeMsgs (vis text)) ++
    [Msg.endMark]).count Msg.endMark = 1
  rw [List.count_append, List.count_eq_zero.mpr hnot]
  simp

/-- A conversation-history entry of the session. -/
structure HMsg where
  role : String
  content : String
deriving DecidableEq

/-- Outcome of the Bedrock Converse call: the text parts of the output
message, or a thrown error. -/
inductive GenOutcome
  | ok (contents : List String)
  | err

def FALLBACK_TEXT : String := "I apologize, I had trouble processing that."

/-- userTranscript?.trim() with the falsy default. -/
def userEntryContent (ut : String) : String :=
  if ut.trim = "" then "(no speech detected)" else ut.trim

/-- getLLMResponse: on success, the joined trimmed output text (with its
falsy default) is returned and the user and assistant entries are pushed
onto the history; in the catch branch the fallback text is returned and
the history is untouched. -/
def getLLMResponse (history : List HMsg) (ut : String) :
    GenOutcome → String × List HMsg
  | .ok contents =>
    let responseText :=
      if (String.join contents).trim = "" then "Okay." else (String.join contents).trim
    (responseText,
      history ++ [⟨"user", userEntryContent ut⟩, ⟨"assistant", responseText⟩])
  | .err => (FALLBACK_TEXT, history)

/-- The observable result of one credentialed runAgent turn. -/
structure AgentResult where
  spokenText : String
  history : List HMsg
  trace : List Msg

/-- runAgent with credentials: generate the response text (or fallback),
then stream TTS for that very text. -/
def runAgent (history : List HMsg) (ut : String) (g : GenOutcome)
    (audio : String → AudioOutcome) (vis : String → VisemeOutcome)
    (sched : List Bool) : AgentResult :=
  let r := getLLMResponse history ut g
  ⟨r.1, r.2, streamTTS r.1 audio vis sched⟩

/-- C8: if the generation call throws, the spoken text is the fixed
fallback string, both synthesis calls still run on it and the turn still
ends with the end marker, while the conversation history is unchanged; and
when generation succeeds the history is extended by exactly the user
transcript entry followed by the assistant response entry. -/
theorem generation_failure_fallback_history (history : List HMsg) (ut : String)
    (audio : String → AudioOutcome) (vis : String → VisemeOutcome)
    (sched : List Bool) :
    ((runAgent history ut GenOutcome.err audio vis sched).spokenText = FALLBACK_TEXT ∧
      (runAgent history ut GenOutcome.err audio vis sched).history = history ∧
      (runAgent history ut GenOutcome.err audio vis sched).trace =
        streamTTS FALLBACK_TEXT audio vis sched ∧
      Msg.endMark ∈ (runAgent history ut GenOutcome.err audio vis sched).trace) ∧
    ∀ contents,
      (runAgent history ut (GenOutcome.ok contents) audio vis sched).history =
        history ++ [⟨"user", userEntryContent ut⟩,
          ⟨"assistant",
            (runAgent history ut (GenOutcome.ok contents) audio vis sched).spokenText⟩] := by
  refine ⟨⟨rfl, rfl, rfl, ?_⟩, fun contents => rfl⟩
  show Msg.endMark ∈ streamTTS FALLBACK_TEXT audio vis sched
  unfold streamTTS
  exact List.mem_append_right _ (List.mem_singleton.mpr rfl)

end Agent

namespace STT

/-- Transcript text as a character list (String in the source). -/
abbrev Txt := List Char

/-- String.prototype.trim of JS: whitespace stripped from both ends. -/
def trimTxt (t : Txt) : Txt :=
  ((t.dropWhile Char.isWhitespace).reverse.dropWhile Char.isWhitespace).reverse

/-- One result of the TranscriptResultStream: its IsPartial flag and its
first alternative's transcript (when present). -/
structure TResult where
  interim : Bool
  transcriptAlt : Option Txt

/-- The fullTranscript accumulation loop of runTranscribe: partial results
are skipped, and a final result's first-alternative transcript is appended
when it is truthy (present and nonempty). -/
def finalsConcat (rs : List TResult) : Txt :=
  rs.foldl
    (fun acc r =>
      if r.interim then acc
      else
        match r.transcriptAlt with
        | none => acc
        | some t => if t = [] then acc else acc ++ t)
    []

/-- runTranscribe over the results delivered before a possible provider
failure: the try branch returns fullTranscript.trim(), and the catch branch
also returns fullTranscript.trim() instead of rethrowing. -/
def runTranscribe (delivered : List TResult) (fails : Bool) : Except Txt Txt :=
  if fails then Except.ok (trimTxt (finalsConcat delivered))
  else Except.ok (trimTxt (finalsConcat delivered))

/-- end() of createStreamingSTT: awaits the transcript promise and returns
its value. -/
def sttEnd (delivered : List TResult) (fails : Bool) : Except Txt Txt :=
  runTranscribe delivered fails

/-- The transcript as the claim words it: the concatenation, in arrival
order, of the final (non-partial) results' transcripts. -/
def specFinalsConcat (rs : List TResult) : Txt :=
  ((rs.filter fun r => !r.interim).map fun r => r.transcriptAlt.getD []).flatten

theorem finalsConcat_foldl (rs : List TResult) : ∀ acc : Txt,
    rs.foldl
      (fun acc r =>
        if r.interim then acc
        else
          match r.transcriptAlt with
          | none => acc
          | some t => if t = [] then acc else acc ++ t)
      acc = acc ++ specFinalsConcat rs := by
  induction rs with
  | nil =>
    intro acc
    simp [specFinalsConcat]
  | cons r rs ih =>
    intro acc
    rw [List.foldl_cons, ih]
    by_cases hi : r.interim
    · rw [if_pos hi]
      unfold specFinalsConcat
      rw [List.filter_cons_of_neg (by simp [hi])]
    · rw [if_neg hi]
      have hspec : specFinalsConcat (r :: rs) =
          r.transcriptAlt.getD [] ++ specFinalsConcat rs := by
        unfold specFinalsConcat
        rw [List.filter_cons_of_pos (by simp [hi]), List.map_cons, List.flatten_cons]
      rw [hspec]
      rcases ha : r.transcriptAlt with _ | t
      · simp [ha]
      · simp only [ha, Option.getD_some]
        by_cases ht : t = []
        · rw [if_pos ht, ht]
          simp
        · rw [if_neg ht, List.append_assoc]

theorem finalsConcat_eq_spec (rs : List TResult) :
    finalsConcat rs = specFinalsConcat rs := by
  have h := finalsConcat_foldl rs []
  simpa [finalsConcat] using h

/-- C7: end() always resolves and never rejects: for every sequence of
delivered provider results and whether or not the provider call then fails,
it resolves with the trimmed concatenation, in arrival order, of exactly the
final (non-partial) results' transcripts — on failure this is whatever had
accumulated before the failure (possibly empty), not an error. -/
theorem stt_end_always_resolves_with_finals (delivered : List TResult) (fails : Bool) :
    sttEnd delivered fails = Except.ok (trimTxt (specFinalsConcat delivered)) := by
  unfold sttEnd runTranscribe
  rw [finalsConcat_eq_spec]
  by_cases hf : fails = true
  · rw [if_pos hf]
  · rw [if_neg hf]

end STT
